import Mathlib

/-!
Verification of the `minushalf` correction engine against its specification.

The Python sources are shallowly embedded: text is modelled as `List Char`,
Python floats as `ℚ`, and fallible code returns `Except PyErr _`.  Functions
keep the names of the Python functions they embed.  A few helpers that live
in `minushalf.utils` / `minushalf.data` (which only the specification
describes) are modelled from the spec and marked as such in their doc
comments.
-/

namespace Minushalf

/-- Text is modelled as a list of characters. -/
abbrev Str := List Char

/-- Equality of `Except` results is decidable when it is on both sides. -/
instance {ε α : Type} [DecidableEq ε] [DecidableEq α] : DecidableEq (Except ε α) := fun x y =>
  match x, y with
  | .ok a, .ok b =>
      match decEq a b with
      | isTrue h => isTrue (by rw [h])
      | isFalse h => isFalse (by intro hh; injection hh; contradiction)
  | .error a, .error b =>
      match decEq a b with
      | isTrue h => isTrue (by rw [h])
      | isFalse h => isFalse (by intro hh; injection hh; contradiction)
  | .ok _, .error _ => isFalse (by intro hh; exact Except.noConfusion hh)
  | .error _, .ok _ => isFalse (by intro hh; exact Except.noConfusion hh)

/-- Python exceptions raised by the embedded code. -/
inductive PyErr where
  | valueError : String → PyErr
  | keyError : String → PyErr
  | indexError : PyErr
  | fileNotFoundError : PyErr
  | exceptionError : String → PyErr
  deriving DecidableEq, Repr

/-- Whitespace class used by Python's `str.split()`, `str.strip()` and by
the `\s` regex class (restricted to ASCII, which is all the repository's
text uses). -/
def isSpace (c : Char) : Bool :=
  decide (c = ' ' ∨ c = '\t' ∨ c = '\n' ∨ c = '\r' ∨ c = '\x0b' ∨ c = '\x0c')

/-- The decimal digit character for `d < 10`. -/
def digitChar (d : ℕ) : Char := Char.ofNat (48 + d)

/-- Fuelled decimal rendering; the fuel bounds the number of digits, so
the recursion is structural and the kernel can evaluate it. -/
def renderNatAux : ℕ → ℕ → Str
  | 0, _ => []
  | fuel + 1, n =>
      if n < 10 then [digitChar n]
      else renderNatAux fuel (n / 10) ++ [digitChar (n % 10)]

/-- Decimal rendering of a natural number, as done by Python's
`"{}".format` on a nonnegative `int`. -/
def renderNat (n : ℕ) : Str := renderNatAux (n + 1) n

/-- Decimal rendering of an integer, as done by Python's `"{}".format`. -/
def renderInt (i : ℤ) : Str :=
  if i < 0 then '-' :: renderNat i.natAbs else renderNat i.toNat

/-- Numeric value of a list of digit characters (most significant first). -/
def natOfDigits (l : Str) : ℕ :=
  l.foldl (fun acc c => 10 * acc + (c.toNat - 48)) 0

/-- `true` iff the character is an ASCII decimal digit. -/
def isDigit (c : Char) : Bool := decide (48 ≤ c.toNat ∧ c.toNat ≤ 57)

/-- Parse of a nonempty all-digit string into a natural number
(the core of Python's `int(...)`). -/
def parseNat (s : Str) : Option ℕ :=
  if s ≠ [] ∧ s.all isDigit then some (natOfDigits s) else none

/-- Python's `int(token)` on an already-stripped token: an optional sign
followed by at least one digit. -/
def parseInt (s : Str) : Option ℤ :=
  if s.head? = some '-' then (parseNat s.tail).map (fun n => -(n : ℤ))
  else if s.head? = some '+' then (parseNat s.tail).map (fun n => (n : ℤ))
  else (parseNat s).map (fun n => (n : ℤ))

/-- Python's `str.split(sep)` for a one-character separator (used for
`split('=')` and for splitting a decimal literal at the dot).  `acc` holds
the current piece in reverse. -/
def splitOnCharAux (sep : Char) (acc : Str) : Str → List Str
  | [] => [acc.reverse]
  | c :: cs =>
      if c = sep then acc.reverse :: splitOnCharAux sep [] cs
      else splitOnCharAux sep (c :: acc) cs

/-- Python's `str.split(sep)` for a one-character separator. -/
def splitOnChar (sep : Char) (s : Str) : List Str := splitOnCharAux sep [] s

/-- The rational `n + m / 10^k`, built with the kernel-evaluable smart
constructor `mkRat` (the `Rat` field operations are `@[irreducible]`;
`qOfDecimal_eq` below states the intended value). -/
def qOfDecimal (n m k : ℕ) : ℚ := mkRat (n * 10 ^ k + m) (10 ^ k)

/-- Unsigned core of Python's `float(token)`: an integer part and an
optional fractional part separated by a dot, with at least one digit. -/
def parseFloatCore (t : Str) : Option ℚ :=
  match splitOnChar '.' t with
  | [ip] => (parseNat ip).map (fun n => (n : ℚ))
  | [ip, fp] =>
      if (ip.all isDigit ∧ fp.all isDigit) ∧ (ip ≠ [] ∨ fp ≠ []) then
        some (qOfDecimal (natOfDigits ip) (natOfDigits fp) fp.length)
      else none
  | _ => none

/-- Python's `float(token)` on the decimal shapes the repository produces:
an optional sign, an integer part and an optional fractional part (at
least one digit overall). -/
def parseFloat (s : Str) : Option ℚ :=
  if s.head? = some '-' then (parseFloatCore s.tail).map (fun q => -q)
  else if s.head? = some '+' then parseFloatCore s.tail
  else parseFloatCore s

/-- `100 * |q|` rounded half to even to a natural number: with
`N = 100 * |q.num|` and `D = q.den`, the value `N / D` rounded half to
even.  This is the rounding Python performs when formatting `q` with
`"{:.2f}"` (written on the numerator and denominator so that the kernel
can evaluate it). -/
def roundedHundredths (q : ℚ) : ℕ :=
  if 2 * (100 * q.num.natAbs % q.den) < q.den then
    100 * q.num.natAbs / q.den
  else if q.den < 2 * (100 * q.num.natAbs % q.den) then
    100 * q.num.natAbs / q.den + 1
  else if (100 * q.num.natAbs / q.den) % 2 = 0 then
    100 * q.num.natAbs / q.den
  else 100 * q.num.natAbs / q.den + 1

/-- Two-digit zero-padded rendering of `m < 100`. -/
def pad2 (m : ℕ) : Str := if m < 10 then '0' :: renderNat m else renderNat m

/-- Python's `"{:.2f}".format(q)`: round `100 * |q|` to an integer (half
to even) and print sign (Python prints `-0.00` for tiny negatives),
integer part, dot and two fractional digits. -/
def format2f (q : ℚ) : Str :=
  (if q.num < 0 then ['-'] else []) ++
    renderNat (roundedHundredths q / 100) ++ '.' :: pad2 (roundedHundredths q % 100)

/-- Python's `str.split()` with no argument: split on runs of whitespace,
dropping empty pieces.  `acc` holds the characters of the word currently
being read, in reverse. -/
def wordsAux (acc : Str) : Str → List Str
  | [] => if acc = [] then [] else [acc.reverse]
  | c :: cs =>
      if isSpace c then
        if acc = [] then wordsAux [] cs else acc.reverse :: wordsAux [] cs
      else wordsAux (c :: acc) cs

/-- Python's `str.split()` with no argument. -/
def words (s : Str) : List Str := wordsAux [] s

/-- Python's `sep.join(tokens)`. -/
def sepJoin (sep : Str) : List Str → Str
  | [] => []
  | [x] => x
  | x :: xs => x ++ sep ++ sepJoin sep xs

/-- Python's `file.readlines()` applied to the file's contents: split after
each newline, keeping the newline; a trailing chunk without a newline is
kept.  `acc` holds the current line in reverse. -/
def splitLinesAux (acc : Str) : Str → List Str
  | [] => if acc = [] then [] else [acc.reverse]
  | c :: cs =>
      if c = '\n' then (acc.reverse ++ ['\n']) :: splitLinesAux [] cs
      else splitLinesAux (c :: acc) cs

/-- Python's `file.readlines()` applied to the file's contents. -/
def splitLines (s : Str) : List Str := splitLinesAux [] s

/-- Python's `str.capitalize()`: first character upper-cased, all the
remaining characters lower-cased. -/
def capitalize : Str → Str
  | [] => []
  | c :: cs => c.toUpper :: cs.map Char.toLower

/-- Python's `l[k:]` slicing for a possibly negative integer index. -/
def pySliceFrom {α : Type} (k : ℤ) (l : List α) : List α :=
  l.drop (if 0 ≤ k then k else (l.length : ℤ) + k).toNat

/-- Modelled from the spec: the periodic-table lookup table
(`PeriodicTable` in `minushalf.data` is not part of the sources).  Its
keys are the capitalized element symbols, and `PeriodicTable[symbol]`
succeeds exactly when `symbol` is one of them, case-sensitively. -/
def PeriodicTable : List Str :=
  ["H", "He", "Li", "Be", "B", "C", "N", "O", "F", "Ne", "Na", "Mg", "Al",
   "Si", "P", "S", "Cl", "Ar", "K", "Ca", "Sc", "Ti", "V", "Cr", "Mn",
   "Fe", "Co", "Ni", "Cu", "Zn", "Ga", "Ge", "As", "Se", "Br", "Kr",
   "Rb", "Sr", "Y", "Zr", "Nb", "Mo", "Tc", "Ru", "Rh", "Pd", "Ag", "Cd",
   "In", "Sn", "Sb", "Te", "I", "Xe", "Cs", "Ba", "La", "Ce", "Pr", "Nd",
   "Pm", "Sm", "Eu", "Gd", "Tb", "Dy", "Ho", "Er", "Tm", "Yb", "Lu",
   "Hf", "Ta", "W", "Re", "Os", "Ir", "Pt", "Au", "Hg", "Tl", "Pb", "Bi",
   "Po", "At", "Rn", "Fr", "Ra", "Ac", "Th", "Pa", "U", "Np", "Pu", "Am",
   "Cm", "Bk", "Cf", "Es", "Fm", "Md", "No", "Lr", "Rf", "Db", "Sg",
   "Bh", "Hs", "Mt", "Ds", "Rg", "Cn", "Nh", "Fl", "Mc", "Lv", "Ts",
   "Og"].map String.toList

/-- The nine exchange-correlation codes appearing in the validator's
regular expression in `InputFile.exchange_correlation_type`. -/
def xcCodes : List Str :=
  ["ca", "wi", "hl", "gl", "bh", "pb", "rp", "rv", "bl"].map String.toList

/-- `re.compile(r"(ca|wi|hl|gl|bh|pb|rp|rv|bl)(s|r)?").match(s)` is truthy:
`re.match` only anchors at the start of the string and the trailing group
is optional, so a match exists exactly when one of the nine codes begins
the string. -/
def xcRegexMatches (s : Str) : Bool := xcCodes.any (fun c => c.isPrefixOf s)

/-- The `exchange_correlation_type` property setter of `InputFile`. -/
def exchange_correlation_type_set (s : Str) : Except PyErr Str :=
  if xcRegexMatches s then .ok s
  else .error (.valueError
    "Your value of exchange and correlation functional is not valid")

/-- `re.compile(r"(ae)").match(s)` is truthy: `re.match` only anchors at
the start of the string, so a match exists exactly when `s` starts with
`ae`. -/
def calcRegexMatches (s : Str) : Bool := "ae".toList.isPrefixOf s

/-- The `calculation_code` property setter of `InputFile`. -/
def calculation_code_set (s : Str) : Except PyErr Str :=
  if calcRegexMatches s then .ok s
  else .error (.valueError "Your value of calculation is not valid")

/-- The `chemical_symbol` property setter of `InputFile`: the
periodic-table membership test runs on the raw argument, and the stored
value is the capitalized argument. -/
def chemical_symbol_set (s : Str) : Except PyErr Str :=
  if s ∈ PeriodicTable then .ok (capitalize s)
  else .error (.valueError "The chemical symbol passed is not correct")

/-- One valence orbital of the atomic input file: principal quantum
number, angular-momentum quantum number and spin-resolved occupations. -/
structure Orbital where
  n : ℤ
  l : ℤ
  occupation : List ℚ
  deriving DecidableEq, Repr

/-- The parsed atomic input file (`INP.ae`). -/
structure InputFile where
  exchange_correlation_type : Str
  calculation_code : Str
  description : Str
  chemical_symbol : Str
  esoteric_line : Str
  number_core_orbitals : ℤ
  number_valence_orbitals : ℤ
  valence_orbitals : List Orbital
  last_lines : List Str
  deriving DecidableEq, Repr

/-- `InputFile.__init__`: runs the three validating setters in the order
the constructor assigns them (exchange-correlation code, calculation
code, chemical symbol) and normalizes a falsy `last_lines` to `[]`. -/
def mkInputFile (exchange_correlation_type calculation_code chemical_symbol
    esoteric_line : Str) (number_valence_orbitals number_core_orbitals : ℤ)
    (valence_orbitals : List Orbital) (description : Str)
    (last_lines : List Str) : Except PyErr InputFile := do
  let xc ← exchange_correlation_type_set exchange_correlation_type
  let cc ← calculation_code_set calculation_code
  let sym ← chemical_symbol_set chemical_symbol
  pure { exchange_correlation_type := xc, calculation_code := cc,
         description := description, chemical_symbol := sym,
         esoteric_line := esoteric_line,
         number_core_orbitals := number_core_orbitals,
         number_valence_orbitals := number_valence_orbitals,
         valence_orbitals := valence_orbitals,
         last_lines := if last_lines.isEmpty then [] else last_lines }

/-- `np.isclose(v, 0.0, rtol=1e-04, atol=1e-08)` unfolds to
`|v - 0| ≤ atol + rtol * |0|`, i.e. `|v| ≤ 1e-8` — written on the
numerator and denominator so the kernel can evaluate it;
`isCloseToZero_iff` below states the intended reading. -/
def isCloseToZero (v : ℚ) : Bool :=
  decide (v.num * 100000000 ≤ (v.den : ℤ) ∧ -(v.den : ℤ) ≤ v.num * 100000000)

/-- Subtraction on `ℚ` via the kernel-evaluable smart constructor
(`Rat.sub` is `@[irreducible]`); `qSub_eq` below shows it is `a - b`. -/
def qSub (a b : ℚ) : ℚ := mkRat (a.num * b.den - b.num * a.den) (a.den * b.den)

/-- The loop of `InputFile.electron_occupation`, running over the
reversed valence-orbital list.  Accessing `value["occupation"][0]` raises
an `IndexError` on an empty occupation list; the `for`/`else` raises the
generic occupation exception when the loop never breaks. -/
def electron_occupation_loop (electron_fraction : ℚ)
    (secondary_quantum_number : ℤ) : List Orbital → Except PyErr (List Orbital)
  | [] => .error (.exceptionError
      "Trouble with occupation. Please verify the parameters passed and the INP file.")
  | o :: rest =>
    match o.occupation with
    | [] => .error .indexError
    | v :: occRest =>
      if ¬ isCloseToZero v ∧ o.l = secondary_quantum_number then
        .ok ({ o with occupation := qSub v electron_fraction :: occRest } :: rest)
      else
        (electron_occupation_loop electron_fraction secondary_quantum_number rest).map
          (o :: ·)

/-- `InputFile.electron_occupation`, acting on the valence-orbital list
(the Python method mutates `self.valence_orbitals` in place; the model
returns the updated list). -/
def electron_occupation (valence_orbitals : List Orbital)
    (electron_fraction : ℚ) (secondary_quantum_number : ℤ) :
    Except PyErr (List Orbital) :=
  (electron_occupation_loop electron_fraction secondary_quantum_number
    valence_orbitals.reverse).map List.reverse

/-- The orbital line written by `InputFile.to_stringlist`:
`"    {}    {}      {}\n".format(n, l, "      ".join(two-decimal occupations))`. -/
def orbitalLine (o : Orbital) : Str :=
  "    ".toList ++ renderInt o.n ++ "    ".toList ++ renderInt o.l ++
    "      ".toList ++ sepJoin "      ".toList (o.occupation.map format2f) ++ ['\n']

/-- `InputFile.to_stringlist`. -/
def to_stringlist (f : InputFile) : List Str :=
  ["   ".toList ++ f.calculation_code ++ "      ".toList ++ f.description ++ ['\n'],
   " n=".toList ++ f.chemical_symbol,
   (if f.chemical_symbol.length = 2 then " c=".toList else "  c=".toList) ++
     f.exchange_correlation_type ++ ['\n'],
   f.esoteric_line,
   (if f.number_core_orbitals ≤ 9 then "    ".toList else "   ".toList) ++
     renderInt f.number_core_orbitals ++ "    ".toList ++
     renderInt f.number_valence_orbitals ++ ['\n']] ++
  f.valence_orbitals.map orbitalLine ++ f.last_lines

/-- `InputFile.to_file`: `writelines` concatenates the string list into
the file's contents. -/
def to_file_content (f : InputFile) : Str := (to_stringlist f).flatten

/-- Modelled from the spec: `drop_comments` from `minushalf.utils` is not
part of the sources; per §4.2 the parser strips comment lines, i.e. lines
whose first non-whitespace character is `#`. -/
def drop_comments (lines : List Str) : List Str :=
  lines.filter (fun l => decide ((l.dropWhile isSpace).head? ≠ some '#'))

/-- Python's `int(token)` as an exception-raising conversion. -/
def intOfToken (t : Str) : Except PyErr ℤ :=
  match parseInt t with
  | some n => .ok n
  | none => .error (.valueError "invalid literal for int")

/-- Python's `float(token)` as an exception-raising conversion. -/
def floatOfToken (t : Str) : Except PyErr ℚ :=
  match parseFloat t with
  | some q => .ok q
  | none => .error (.valueError "could not convert string to float")

/-- Modelled from the spec: `parse_valence_orbitals` from
`minushalf.utils` is not part of the sources; per §3 and §4.2 an orbital
line holds the principal quantum number, the angular-momentum quantum
number and the occupation floats, whitespace-separated. -/
def parse_valence_orbitals (line : Str) : Except PyErr Orbital :=
  match words line with
  | t0 :: t1 :: rest => do
      let n ← intOfToken t0
      let l ← intOfToken t1
      let occ ← rest.mapM floatOfToken
      pure { n := n, l := l, occupation := occ }
  | _ => .error .indexError

/-- `InputFile.from_file`, applied to the contents of the file. -/
def from_file (content : Str) : Except PyErr InputFile := do
  let lines := drop_comments (splitLines content)
  let (calculation_code, description) ←
    match (lines[0]?).map words with
    | some (c :: rest) => pure (c, sepJoin [' '] rest)
    | _ => Except.error (PyErr.valueError
        "Description or calculation code not provided")
  let (chemical_symbol, exchange_correlation_type) ←
    match (do
      let l1 ← lines[1]?
      let t0 ← (words l1)[0]?
      let t1 ← (words l1)[1]?
      let sym ← (splitOnChar '=' t0)[1]?
      let xc ← (splitOnChar '=' t1)[1]?
      pure (sym, xc) : Option (Str × Str)) with
    | some p => pure p
    | none => Except.error (PyErr.valueError
        "Chemical symbol or exchange correlation not provided")
  let esoteric_line ←
    match lines[2]? with
    | some l => pure l
    | none => Except.error PyErr.indexError
  let (number_core_orbitals, number_valence_orbitals) ←
    match (do
      let l3 ← lines[3]?
      let a ← parseInt (← (words l3)[0]?)
      let b ← parseInt (← (words l3)[1]?)
      pure (a, b) : Option (ℤ × ℤ)) with
    | some p => pure p
    | none => Except.error (PyErr.valueError
        "Number of core orbitals or number of valence orbitals not provided")
  let valence_orbitals ←
    match (List.range' 4 number_valence_orbitals.toNat).mapM
        (fun i => do
          let l ← lines[i]?
          (parse_valence_orbitals l).toOption) with
    | some os => pure os
    | none => Except.error (PyErr.valueError
        "Valence orbitals do not provided correctly")
  let last_lines := pySliceFrom (4 + number_valence_orbitals) lines
  mkInputFile exchange_correlation_type calculation_code chemical_symbol
    esoteric_line number_valence_orbitals number_core_orbitals
    valence_orbitals description last_lines

/-- Modelled from the spec: the built-in per-element default
electronic-distribution table (`ElectronicDistribution` in
`minushalf.data` is not part of the sources).  Per §4.2 each entry holds
the lines of the element's default electronic configuration: first the
core/valence orbital counts, then one line per valence orbital. -/
def ElectronicDistribution : List (Str × List Str) :=
  [("H", ["0 1", "1 0 1.00"]),
   ("He", ["0 1", "1 0 2.00"]),
   ("C", ["1 2", "2 0 2.00", "2 1 2.00"]),
   ("N", ["1 2", "2 0 2.00", "2 1 3.00"]),
   ("O", ["1 2", "2 0 2.00", "2 1 4.00"]),
   ("Si", ["3 2", "3 0 2.00", "3 1 2.00"]),
   ("Ga", ["6 3", "3 2 10.00", "4 0 2.00", "4 1 1.00"])].map
    (fun p => (p.1.toList, p.2.map String.toList))

/-- `ElectronicDistribution[symbol]`: enum lookup by exact name. -/
def edLookup (symbol : Str) : Option (List Str) :=
  (ElectronicDistribution.find? (fun p => decide (p.1 = symbol))).map (·.2)

/-- The core/valence count extraction of `minimum_setup`:
`int(electronic_distribution[0].split()[0])` and
`int(electronic_distribution[0].split()[1])`. -/
def edEntryCounts (ed : List Str) : Option (ℤ × ℤ) := do
  let l0 ← ed[0]?
  let a ← parseInt (← (words l0)[0]?)
  let b ← parseInt (← (words l0)[1]?)
  pure (a, b)

/-- `InputFile.minimum_setup` (defaults in Python:
`maximum_iterations=100`, `calculation_code="ae"`). -/
def minimum_setup (chemical_symbol exchange_correlation_type : Str)
    (maximum_iterations : ℤ) (calculation_code : Str) :
    Except PyErr InputFile := do
  let description := chemical_symbol
  let esoteric_line :=
    "       0.0       0.0       0.0       0.0       0.0       0.0\n".toList
  let last_lines := [renderInt maximum_iterations ++ " maxit\n".toList]
  let ed ←
    match edLookup chemical_symbol with
    | some ed => pure ed
    | none => Except.error (PyErr.valueError
        "This element its not available in our database")
  let (number_core_orbitals, number_valence_orbitals) ←
    match edEntryCounts ed with
    | some p => pure p
    | none => Except.error PyErr.indexError
  let valence_orbitals ← (ed.drop 1).mapM parse_valence_orbitals
  mkInputFile exchange_correlation_type calculation_code chemical_symbol
    esoteric_line number_valence_orbitals number_core_orbitals
    valence_orbitals description last_lines

/-! ### `Vtotal` (minushalf/atomic/vtotal.py) -/

/-- Matches `word1 ++ \s+ ++ word2 ++ \s+ ++ word3` at the start of the
string. -/
def matchesWordsAt (w1 w2 w3 : Str) (s : Str) : Bool :=
  (w1.isPrefixOf s) &&
    (let r1 := s.drop w1.length
     (r1.head?.elim false isSpace) &&
       (let r2 := r1.dropWhile isSpace
        (w2.isPrefixOf r2) &&
          (let r3 := r2.drop w2.length
           (r3.head?.elim false isSpace) &&
             (w3.isPrefixOf (r3.dropWhile isSpace)))))

/-- Truthiness of `re.compile(r"^.*<w1>\s+<w2>\s+<w3>").match(line)` for a
single line read from a file: with `.*` unable to cross a newline and the
line holding its only newline at the end, a match exists exactly when the
three words separated by whitespace runs occur somewhere in the line. -/
def containsMarker (w1 w2 w3 : Str) : Str → Bool
  | [] => matchesWordsAt w1 w2 w3 []
  | c :: cs => matchesWordsAt w1 w2 w3 (c :: cs) || containsMarker w1 w2 w3 cs

/-- The `"Down potential follows"` marker regex of `Vtotal`. -/
def downMarker (line : Str) : Bool :=
  containsMarker "Down".toList "potential".toList "follows".toList line

/-- The `"Up potential follows"` marker regex of `Vtotal`. -/
def upMarker (line : Str) : Bool :=
  containsMarker "Up".toList "potential".toList "follows".toList line

/-- The table-collecting loop shared by `Vtotal.read_down_potential` and
`Vtotal.read_radius`: gather lines until one matching `stop`; `none` when
`stop` never matches (the Python loop then falls off the end of the
function). -/
def takeTableLines (stop : Str → Bool) : List Str → Option (List Str)
  | [] => none
  | l :: ls => if stop l then some [] else (takeTableLines stop ls).map (l :: ·)

/-- `np.array(tokens, dtype=np.float)` on the flattened token table. -/
def tokensToFloats (tbl : List Str) : Except PyErr (List ℚ) :=
  ((tbl.map words).flatten).mapM floatOfToken

/-- `Vtotal.read_down_potential`, applied to the file's lines.  `.ok none`
is Python's implicit `return None` when the `Up` marker never appears. -/
def read_down_potential (lines : List Str) : Except PyErr (Option (List ℚ)) :=
  match lines.dropWhile (fun l => !downMarker l) with
  | [] => .error (.valueError "Potential informations do not found in vtotal")
  | _ :: rest =>
      match takeTableLines upMarker (rest.drop 1) with
      | none => .ok none
      | some tbl => (tokensToFloats tbl).map some

/-- `Vtotal.read_radius`, applied to the file's lines.  The first line is
skipped as a header; `.ok none` is Python's implicit `return None` when
the `Down` marker never appears — this branch raises nothing. -/
def read_radius (lines : List Str) : Except PyErr (Option (List ℚ)) :=
  match takeTableLines downMarker (lines.drop 1) with
  | none => .ok none
  | some tbl => (tokensToFloats tbl).map some

/-! ### Conduction correction (minushalf/corrections/vasp/conduction_fractionary.py) -/

/-- A pandas `DataFrame` holding the CBM projection table.  Following §4.3
and the accessors `cbm_projection[orbital][symbol]` used elsewhere in the
correction class, the columns are orbital types and the index holds the
atom symbols; `cells` maps a (column, row) pair to the stored value. -/
structure DataFrame where
  index : List String
  columns : List String
  cells : List (String × String × ℚ)

/-- `df[c][r]` in pandas: `df[c]` selects the column labelled `c` (a
`KeyError` when `c` is not a column label), and `[r]` then selects the
row entry (a `KeyError` when absent). -/
def dfGet (df : DataFrame) (c r : String) : Except PyErr ℚ :=
  if c ∈ df.columns then
    match (df.cells.find? (fun t => decide (t.1 = c ∧ t.2.1 = r))).map (·.2.2) with
    | some v => .ok v
    | none => .error (.keyError r)
  else .error (.keyError c)

/-- The 5% threshold (`self.minimum_percentual`). -/
def minimum_percentual : ℚ := 5

/-- Appends `v` to the list stored under key `k`. -/
def appendAt (m : List (String × List ℚ)) (k : String) (v : ℚ) :
    List (String × List ℚ) :=
  m.map (fun p => if p.1 = k then (p.1, p.2 ++ [v]) else p)

/-- `VaspConductionFractionaryCorrection._get_corrections_indexes`: for
each `(row, column)` in the product of index and column labels it tests
`cbm_projection[row][column] >= 5` and then appends
`cbm_projection[column][row]` to the entry of `row`. -/
def get_corrections_indexes (df : DataFrame) :
    Except PyErr (List (String × List ℚ)) :=
  (df.index.flatMap (fun r => df.columns.map (fun c => (r, c)))).foldlM
    (fun m rc => do
      let v ← dfGet df rc.1 rc.2
      if v ≥ minimum_percentual then
        let w ← dfGet df rc.2 rc.1
        pure (appendAt m rc.1 w)
      else
        pure m)
    (df.index.map (fun r => (r, ([] : List ℚ))))

/-- The projection-table fixture of §8:
`{Ga: {p: 90}, N: {d: 3}}` (absent contributions stored as 0). -/
def fixtureProjection : DataFrame :=
  { index := ["Ga", "N"], columns := ["p", "d"],
    cells := [("p", "Ga", 90), ("d", "Ga", 0), ("p", "N", 0), ("d", "N", 3)] }

/-- The `stderr` check after `Popen(['minushalf', 'run-atomic'], ...)` in
`_generate_atom_pseudopotential`: raises exactly when the error stream is
non-empty. -/
def generate_atom_pseudopotential_check (stderr : Str) : Except PyErr Unit :=
  if stderr ≠ [] then .error (.exceptionError "Call to atomic program failed")
  else .ok ()

/-- `_generate_occupation_potential`: a missing pseudopotential folder
raises `FileNotFoundError` before any process is spawned; otherwise the
spawned process's error stream is checked and raises exactly when
non-empty. -/
def generate_occupation_potential_check (folder_exists : Bool) (stderr : Str) :
    Except PyErr Unit :=
  if ¬ folder_exists then
    .error .fileNotFoundError
  else if stderr ≠ [] then
    .error (.exceptionError "Call to occupation command failed")
  else .ok ()

/-- The guard of `_write_potfile`: the corrected potential file must
already exist (it is removed and rewritten); a missing file raises
`FileNotFoundError`. -/
def write_potfile_check (potfile_exists : Bool) : Except PyErr Unit :=
  if potfile_exists then .ok () else .error .fileNotFoundError

/-- `os.path.join(a, b)` for the relative paths the correction uses. -/
def pathJoin (a b : Str) : Str := a ++ '/' :: b

/-- The per-evaluation working directory used by
`VaspConductionFractionaryCorrection.find_band_gap`:
`os.path.join(base_path, "find_cut", "cut_{:.2f}".format(cut))`. -/
def cutFolder (base_path : Str) (cut : ℚ) : Str :=
  pathJoin (pathJoin base_path "find_cut".toList) ("cut_".toList ++ format2f cut)

/-! ### Physical lines of a serialized input file (for the round trip) -/

/-- The first physical line written by `to_stringlist`. -/
def line0 (f : InputFile) : Str :=
  "   ".toList ++ f.calculation_code ++ "      ".toList ++ f.description ++ ['\n']

/-- The second physical line: the `n=`/`c=` element is written as two
list entries, the first without a newline, so they form one line of the
file. -/
def line1 (f : InputFile) : Str :=
  " n=".toList ++ f.chemical_symbol ++
    (if f.chemical_symbol.length = 2 then " c=".toList else "  c=".toList) ++
    f.exchange_correlation_type ++ ['\n']

/-- The orbital-count physical line. -/
def line3 (f : InputFile) : Str :=
  (if f.number_core_orbitals ≤ 9 then "    ".toList else "   ".toList) ++
    renderInt f.number_core_orbitals ++ "    ".toList ++
    renderInt f.number_valence_orbitals ++ ['\n']

/-- The physical lines of the file written by `to_file`. -/
def fileLines (f : InputFile) : List Str :=
  line0 f :: line1 f :: f.esoteric_line :: line3 f ::
    (f.valence_orbitals.map orbitalLine ++ f.last_lines)

/-- A single physical line: nonempty, ends with a newline, and contains
no other newline. -/
def isPhysLine (l : Str) : Prop :=
  l ≠ [] ∧ l.getLast? = some '\n' ∧ '\n' ∉ l.dropLast

/-- The line survives `drop_comments`. -/
def notComment (l : Str) : Prop := (l.dropWhile isSpace).head? ≠ some '#'

/-- No whitespace characters. -/
def noSpace (s : Str) : Prop := ∀ c ∈ s, isSpace c = false

/-- An occupation value the two-decimal serializer reproduces exactly: a
nonnegative multiple of `1/100`. -/
def isHundredths (q : ℚ) : Prop := 0 ≤ q.num ∧ 100 % q.den = 0

instance (l : Str) : Decidable (isPhysLine l) := by
  unfold isPhysLine
  infer_instance

instance (l : Str) : Decidable (notComment l) := by
  unfold notComment
  infer_instance

instance (s : Str) : Decidable (noSpace s) := by
  unfold noSpace
  infer_instance

instance (q : ℚ) : Decidable (isHundredths q) := by
  unfold isHundredths
  infer_instance

/-- The input files on which the round trip is proved: every field is in
the canonical form the parser itself produces — the description is
single-space separated with no surrounding whitespace and no newline, the
symbol and codes are nonempty, whitespace- and `=`-free and pass the
setters' validation, the symbol is stored capitalized, the esoteric line
and every trailing line are single newline-terminated non-comment lines,
the valence-orbital count equals the length of the orbital list, and
every occupation value is a nonnegative multiple of `1/100`. -/
def wellFormed (f : InputFile) : Prop :=
  (noSpace f.calculation_code ∧ calcRegexMatches f.calculation_code = true) ∧
  (sepJoin [' '] (words f.description) = f.description ∧
    '\n' ∉ f.description) ∧
  (f.chemical_symbol ≠ [] ∧ noSpace f.chemical_symbol ∧
    '=' ∉ f.chemical_symbol ∧ capitalize f.chemical_symbol = f.chemical_symbol ∧
    f.chemical_symbol ∈ PeriodicTable) ∧
  (f.exchange_correlation_type ≠ [] ∧ noSpace f.exchange_correlation_type ∧
    '=' ∉ f.exchange_correlation_type ∧
    xcRegexMatches f.exchange_correlation_type = true) ∧
  (isPhysLine f.esoteric_line ∧ notComment f.esoteric_line) ∧
  f.number_valence_orbitals = f.valence_orbitals.length ∧
  (∀ o ∈ f.valence_orbitals, ∀ q ∈ o.occupation, isHundredths q) ∧
  (∀ l ∈ f.last_lines, isPhysLine l ∧ notComment l)

instance (f : InputFile) : Decidable (wellFormed f) := by
  unfold wellFormed
  infer_instance

/-- A canonical hydrogen input file (the round-trip witness input). -/
def witnessFile : InputFile :=
  { exchange_correlation_type := "pb".toList, calculation_code := "ae".toList,
    description := "H".toList, chemical_symbol := "H".toList,
    esoteric_line :=
      "       0.0       0.0       0.0       0.0       0.0       0.0\n".toList,
    number_core_orbitals := 0, number_valence_orbitals := 1,
    valence_orbitals := [{ n := 1, l := 0, occupation := [1] }],
    last_lines := ["100 maxit\n".toList] }

/-- The same file with a double space inside the description — a file
the builder serializes but whose reparse joins the description tokens
with single spaces. -/
def doubleSpaceFile : InputFile :=
  { exchange_correlation_type := "pb".toList, calculation_code := "ae".toList,
    description := "a  b".toList, chemical_symbol := "H".toList,
    esoteric_line :=
      "       0.0       0.0       0.0       0.0       0.0       0.0\n".toList,
    number_core_orbitals := 0, number_valence_orbitals := 1,
    valence_orbitals := [{ n := 1, l := 0, occupation := [1] }],
    last_lines := ["100 maxit\n".toList] }

/-! ### Specification-side definitions used for refinement statements -/

/-- The eligibility test worded by the specification for the occupation
shift: the angular momentum matches and the first occupation component is
not within the `np.isclose` tolerance of zero. -/
def eligibleOrbital (secondary_quantum_number : ℤ) (o : Orbital) : Bool :=
  match o.occupation with
  | [] => false
  | v :: _ => (!isCloseToZero v) && decide (o.l = secondary_quantum_number)

/-- Subtracting the electron fraction from the first occupation component
of an orbital. -/
def shiftOcc (electron_fraction : ℚ) (o : Orbital) : Orbital :=
  { o with occupation :=
      match o.occupation with
      | [] => []
      | v :: t => qSub v electron_fraction :: t }

/-- Shift of the first eligible orbital, scanning from the head. -/
def shiftFirstEligible (electron_fraction : ℚ) (sqn : ℤ) :
    List Orbital → Option (List Orbital)
  | [] => none
  | o :: rest =>
      if eligibleOrbital sqn o then some (shiftOcc electron_fraction o :: rest)
      else (shiftFirstEligible electron_fraction sqn rest).map (o :: ·)

/-- Shift of the last eligible orbital, the orbital the specification
says the occupation shift must modify. -/
def shiftLastEligible (electron_fraction : ℚ) (sqn : ℤ) :
    List Orbital → Option (List Orbital)
  | [] => none
  | o :: rest =>
      match shiftLastEligible electron_fraction sqn rest with
      | some rest' => some (o :: rest')
      | none =>
          if eligibleOrbital sqn o then
            some (shiftOcc electron_fraction o :: rest)
          else none

/-- The occupation-shift operation as the specification words it:
subtract the fraction from the first occupation component of the last
eligible orbital, leave everything else unchanged, and fail with the
occupation error when no eligible orbital exists. -/
def electron_occupation_spec (valence_orbitals : List Orbital)
    (electron_fraction : ℚ) (secondary_quantum_number : ℤ) :
    Except PyErr (List Orbital) :=
  match shiftLastEligible electron_fraction secondary_quantum_number
      valence_orbitals with
  | some orbs => .ok orbs
  | none => .error (.exceptionError
      "Trouble with occupation. Please verify the parameters passed and the INP file.")

/-! ### Bridging lemmas for the kernel-evaluable arithmetic -/

/-- `qSub` is subtraction on `ℚ`. -/
theorem qSub_eq (a b : ℚ) : qSub a b = a - b := by
  unfold qSub
  rw [Rat.mkRat_eq_div]
  have ha : ((a.den : ℚ)) ≠ 0 := Nat.cast_ne_zero.mpr a.den_nz
  have hb : ((b.den : ℚ)) ≠ 0 := Nat.cast_ne_zero.mpr b.den_nz
  conv_rhs => rw [← Rat.num_div_den a, ← Rat.num_div_den b]
  rw [div_sub_div _ _ ha hb]
  push_cast
  ring_nf

/-- `qOfDecimal n m k` is the decimal value `n + m / 10^k`. -/
theorem qOfDecimal_eq (n m k : ℕ) :
    qOfDecimal n m k = (n : ℚ) + (m : ℚ) / 10 ^ k := by
  unfold qOfDecimal
  rw [Rat.mkRat_eq_div]
  have h : ((10 : ℚ) ^ k) ≠ 0 := by positivity
  field_simp

/-- `isCloseToZero` is the `np.isclose` comparison `|v| ≤ 1e-8`. -/
theorem isCloseToZero_iff (v : ℚ) :
    isCloseToZero v = true ↔ |v| ≤ 1 / 100000000 := by
  unfold isCloseToZero
  have hden : (0 : ℚ) < (v.den : ℚ) := by exact_mod_cast v.den_pos
  have hup : v ≤ 1 / 100000000 ↔ v.num * 100000000 ≤ (v.den : ℤ) := by
    conv_lhs => rw [← Rat.num_div_den v]
    rw [div_le_div_iff₀ hden (by norm_num : (0 : ℚ) < 100000000), one_mul]
    exact_mod_cast Iff.rfl
  have hlow : -(1 / 100000000 : ℚ) ≤ v ↔ -(v.den : ℤ) ≤ v.num * 100000000 := by
    conv_lhs => rw [← Rat.num_div_den v, ← neg_div (100000000 : ℚ) 1]
    rw [div_le_div_iff₀ (by norm_num : (0 : ℚ) < 100000000) hden, neg_one_mul]
    exact_mod_cast Iff.rfl
  rw [decide_eq_true_eq, abs_le]
  constructor
  · rintro ⟨h1, h2⟩
    exact ⟨hlow.mpr h2, hup.mpr h1⟩
  · rintro ⟨h1, h2⟩
    exact ⟨hup.mp h2, hlow.mp h1⟩

/-! ### C1, C8, C10: the three validating setters -/

/-- C1: the claim (and the setter's own documentation) declares the
relativistic-prefixed code `rca` valid, and every string outside the
optional-marker grammar invalid.  The regex `(ca|wi|hl|gl|bh|pb|rp|rv|bl)(s|r)?`
used with the start-anchored `re.match` instead rejects `rca` — the
relativistic prefix is missing from the pattern — and accepts any string
that merely begins with one of the nine codes, such as `caxx`. -/
theorem exchange_correlation_validator_divergence :
    exchange_correlation_type_set "rca".toList = Except.error (PyErr.valueError
      "Your value of exchange and correlation functional is not valid") ∧
    exchange_correlation_type_set "caxx".toList = Except.ok "caxx".toList := by
  decide

/-- C8 counterexample: the claim says the `calculation_code` setter
accepts exactly the literal `ae` and raises for every other string, but
the prefix-anchored regex `(ae)` accepts `aex` as well. -/
theorem calculation_code_accepts_aex :
    calculation_code_set "aex".toList = Except.ok "aex".toList := by decide

/-- C8 amended: the `calculation_code` setter accepts exactly the strings
that start with `ae`, and raises for every other string. -/
theorem calculation_code_accepts_exactly_ae_prefixed (s : Str) :
    (calculation_code_set s).isOk = true ↔ "ae".toList.isPrefixOf s = true := by
  unfold calculation_code_set
  by_cases h : calcRegexMatches s = true
  · rw [if_pos h]
    exact ⟨fun _ => h, fun _ => rfl⟩
  · rw [if_neg h]
    constructor
    · intro hh
      simp [Except.isOk, Except.toBool] at hh
    · intro hh
      exact absurd hh h

/-- C10: assignment of `chemical_symbol` succeeds exactly when the raw,
un-capitalized argument is a periodic-table key, and every value it
stores is the capitalized form of the argument. -/
theorem chemical_symbol_setter_capitalizes (s : Str) :
    ((chemical_symbol_set s).isOk = true ↔ s ∈ PeriodicTable) ∧
    (∀ r, chemical_symbol_set s = Except.ok r → r = capitalize s) := by
  constructor
  · by_cases h : s ∈ PeriodicTable <;>
      simp [chemical_symbol_set, h, Except.isOk, Except.toBool]
  · intro r hr
    unfold chemical_symbol_set at hr
    by_cases h : s ∈ PeriodicTable
    · simp [h] at hr
      exact hr.symm
    · simp [h] at hr

/-- C10 witness: the setter accepts the capitalized symbol `He` and
stores it capitalized. -/
theorem chemical_symbol_setter_capitalizes_witness :
    ("He".toList : Str) = capitalize "He".toList :=
  (chemical_symbol_setter_capitalizes "He".toList).2 "He".toList (by decide)

/-! ### C6: failure policy of the external-solver invocations -/

/-- C6: each spawned solver process raises exactly when its error stream
is non-empty; `_generate_occupation_potential` raises
`FileNotFoundError` (before spawning anything) when the pseudopotential
folder is missing, and `_write_potfile` raises `FileNotFoundError`
exactly when the corrected potential file is missing.  No branch retries
or recovers: every failure is a raised exception. -/
theorem external_failure_iff_nonempty_stderr (stderrA stderrO : Str)
    (potfile_exists : Bool) :
    ((generate_atom_pseudopotential_check stderrA).isOk = true ↔ stderrA = []) ∧
    ((generate_occupation_potential_check true stderrO).isOk = true ↔ stderrO = []) ∧
    (generate_occupation_potential_check false stderrO =
      Except.error PyErr.fileNotFoundError) ∧
    ((write_potfile_check potfile_exists).isOk = true ↔ potfile_exists = true) := by
  refine ⟨?_, ?_, ?_, ?_⟩
  · unfold generate_atom_pseudopotential_check
    by_cases h : stderrA = [] <;> simp [h, Except.isOk, Except.toBool]
  · unfold generate_occupation_potential_check
    by_cases h : stderrO = [] <;> simp [h, Except.isOk, Except.toBool]
  · unfold generate_occupation_potential_check
    simp
  · unfold write_potfile_check
    cases potfile_exists <;> simp [Except.isOk, Except.toBool]

/-! ### C3: target selection from the projection table -/

/-- C3: on the spec's fixture projection table `{Ga: {p: 90}, N: {d: 3}}`
the claim says `_get_corrections_indexes` returns `{Ga: [p]}`; instead
the very first lookup `cbm_projection[row][column]` uses the atom symbol
`Ga` as a pandas column key and raises `KeyError` (and where labels did
coincide, the code would append the numeric cell value
`cbm_projection[column][row]`, not the orbital name). -/
theorem get_corrections_indexes_fixture_raises :
    get_corrections_indexes fixtureProjection =
      Except.error (PyErr.keyError "Ga") := by decide

/-! ### C2: the occupation shift -/

/-- On orbitals with nonempty occupation lists, the loop of
`electron_occupation` shifts the first eligible orbital of its input (the
reversed valence list). -/
theorem electron_occupation_loop_eq_shiftFirst (ef : ℚ) (sqn : ℤ)
    (l : List Orbital) (h : ∀ o ∈ l, o.occupation ≠ []) :
    electron_occupation_loop ef sqn l =
      match shiftFirstEligible ef sqn l with
      | some r => Except.ok r
      | none => Except.error (.exceptionError
          "Trouble with occupation. Please verify the parameters passed and the INP file.") := by
  induction l with
  | nil => rfl
  | cons o rest ih =>
      obtain ⟨v, occRest, hocc⟩ : ∃ v t, o.occupation = v :: t := by
        cases hc : o.occupation with
        | nil => exact absurd hc (h o (List.mem_cons_self o rest))
        | cons v t => exact ⟨v, t, rfl⟩
      have hrest : ∀ x ∈ rest, x.occupation ≠ [] :=
        fun x hx => h x (List.mem_cons_of_mem _ hx)
      by_cases hcond : (¬ isCloseToZero v = true) ∧ o.l = sqn
      · have helig : eligibleOrbital sqn o = true := by
          simp only [eligibleOrbital, hocc, Bool.and_eq_true, decide_eq_true_eq]
          refine ⟨?_, hcond.2⟩
          cases hcv : isCloseToZero v with
          | true => exact absurd hcv hcond.1
          | false => rfl
        simp only [electron_occupation_loop, hocc, if_pos hcond,
          shiftFirstEligible, if_pos helig]
        simp [shiftOcc, hocc]
      · have helig : ¬ (eligibleOrbital sqn o = true) := by
          simp only [eligibleOrbital, hocc, Bool.and_eq_true, decide_eq_true_eq]
          intro hcontra
          refine hcond ⟨?_, hcontra.2⟩
          intro hcv
          rw [hcv] at hcontra
          exact absurd hcontra.1 (by decide)
        simp only [electron_occupation_loop, hocc, if_neg hcond,
          shiftFirstEligible, if_neg helig]
        rw [ih hrest]
        cases shiftFirstEligible ef sqn rest <;> simp [Except.map]

/-- `shiftFirstEligible` over an append. -/
theorem shiftFirstEligible_append (ef : ℚ) (sqn : ℤ) (a b : List Orbital) :
    shiftFirstEligible ef sqn (a ++ b) =
      match shiftFirstEligible ef sqn a with
      | some r => some (r ++ b)
      | none => (shiftFirstEligible ef sqn b).map (a ++ ·) := by
  induction a with
  | nil => simp [shiftFirstEligible]
  | cons o rest ih =>
      by_cases h : eligibleOrbital sqn o = true
      · simp [shiftFirstEligible, h]
      · simp only [List.cons_append, shiftFirstEligible, if_neg h, ih]
        cases hc1 : shiftFirstEligible ef sqn rest with
        | some r => simp [ih, hc1]
        | none =>
            cases hc2 : shiftFirstEligible ef sqn b <;> simp [ih, hc1, hc2]

/-- The first eligible orbital of the reversed list is the last eligible
orbital of the list. -/
theorem shiftFirstEligible_reverse (ef : ℚ) (sqn : ℤ) (l : List Orbital) :
    shiftFirstEligible ef sqn l.reverse =
      (shiftLastEligible ef sqn l).map List.reverse := by
  induction l with
  | nil => rfl
  | cons o rest ih =>
      rw [List.reverse_cons, shiftFirstEligible_append]
      rw [ih]
      cases hc : shiftLastEligible ef sqn rest with
      | some rest' => simp [shiftLastEligible, hc]
      | none =>
          by_cases h : eligibleOrbital sqn o = true <;>
            simp [shiftLastEligible, hc, shiftFirstEligible, h]

/-- C2 counterexample: the claim quantifies over every `InputFile`, but on
a valence list holding an orbital with an empty occupation list the
operation raises `IndexError` from `value["occupation"][0]` — even though
an eligible orbital exists, so the claim demands the shift (and on
failure it demands the occupation error, not `IndexError`). -/
theorem electron_occupation_empty_occupation_cex :
    electron_occupation [⟨1, 0, [2]⟩, ⟨2, 1, []⟩] (mkRat 1 2) 0 =
      Except.error PyErr.indexError ∧
    electron_occupation_spec [⟨1, 0, [2]⟩, ⟨2, 1, []⟩] (mkRat 1 2) 0 =
      Except.ok [⟨1, 0, [mkRat 3 2]⟩, ⟨2, 1, []⟩] := by decide

/-- C2 amended: on every valence list whose orbitals all have a nonempty
occupation list, `electron_occupation` behaves exactly as the claim
words it: it subtracts the fraction from the first occupation component
of the last orbital whose angular momentum matches and whose first
occupation component is not within the `np.isclose` tolerance of zero,
leaves every other orbital and field unchanged, and raises the
occupation error when no eligible orbital exists. -/
theorem electron_occupation_matches_spec (orbs : List Orbital) (ef : ℚ)
    (sqn : ℤ) (h : ∀ o ∈ orbs, o.occupation ≠ []) :
    electron_occupation orbs ef sqn = electron_occupation_spec orbs ef sqn := by
  unfold electron_occupation electron_occupation_spec
  rw [electron_occupation_loop_eq_shiftFirst ef sqn orbs.reverse
    (fun o ho => h o (List.mem_reverse.mp ho))]
  rw [shiftFirstEligible_reverse]
  cases hc : shiftLastEligible ef sqn orbs <;> simp [hc, Except.map]

/-- C2 witness: a concrete two-orbital valence list on which the
refinement theorem applies and the shift hits the valence-most `l = 0`
orbital. -/
theorem electron_occupation_matches_spec_witness :
    electron_occupation [⟨1, 0, [2]⟩, ⟨2, 0, [3]⟩, ⟨2, 1, [4]⟩] (mkRat 1 2) 0 =
      electron_occupation_spec [⟨1, 0, [2]⟩, ⟨2, 0, [3]⟩, ⟨2, 1, [4]⟩]
        (mkRat 1 2) 0 :=
  electron_occupation_matches_spec _ _ _ (by decide)

/-! ### C4: missing markers in the radial-potential parse -/

/-- When no line satisfies `stop`, the table-collecting loop falls off
the end of the file. -/
theorem takeTableLines_eq_none {stop : Str → Bool} (L : List Str)
    (h : ∀ l ∈ L, stop l = false) : takeTableLines stop L = none := by
  induction L with
  | nil => rfl
  | cons l ls ih =>
      simp only [takeTableLines, h l (List.mem_cons_self l ls),
        Bool.false_eq_true, if_false]
      rw [ih (fun x hx => h x (List.mem_cons_of_mem _ hx))]
      rfl

/-- C4: on a file none of whose lines matches the `Down potential
follows` marker, `read_down_potential` does raise the format error, but
`read_radius` — whose radius table is terminated by that same marker —
returns Python's `None` instead of raising: its loop has no `else`
clause, so the claim's "neither returns a non-error value" fails. -/
theorem vtotal_missing_marker_behavior (lines : List Str)
    (h : ∀ l ∈ lines, downMarker l = false) :
    read_down_potential lines = Except.error (PyErr.valueError
      "Potential informations do not found in vtotal") ∧
    read_radius lines = Except.ok none := by
  constructor
  · unfold read_down_potential
    have : lines.dropWhile (fun l => !downMarker l) = [] := by
      rw [List.dropWhile_eq_nil_iff]
      intro x hx
      simp [h x hx]
    rw [this]
  · unfold read_radius
    rw [takeTableLines_eq_none _ (fun l hl => h l (List.mem_of_mem_drop hl))]

/-- C4 witness: a concrete marker-free file. -/
theorem vtotal_missing_marker_behavior_witness :
    read_down_potential (["Radius header\n", "1.0 2.5\n"].map String.toList) =
      Except.error (PyErr.valueError
        "Potential informations do not found in vtotal") ∧
    read_radius (["Radius header\n", "1.0 2.5\n"].map String.toList) =
      Except.ok none :=
  vtotal_missing_marker_behavior _ (by decide)

/-! ### Decimal rendering and parsing lemmas -/

/-- Character-class facts about the decimal digit characters. -/
theorem digitChar_props {d : ℕ} (h : d < 10) :
    isDigit (digitChar d) = true ∧ isSpace (digitChar d) = false ∧
    digitChar d ≠ '.' ∧ digitChar d ≠ '-' ∧ digitChar d ≠ '+' ∧
    digitChar d ≠ '#' ∧ digitChar d ≠ '=' := by
  interval_cases d <;> exact ⟨by decide, by decide, by decide, by decide,
    by decide, by decide, by decide⟩

/-- The numeric value of the digit character. -/
theorem digitChar_toNat {d : ℕ} (h : d < 10) : (digitChar d).toNat = 48 + d := by
  interval_cases d <;> decide

/-- A digit character is not the decimal dot. -/
theorem ne_dot_of_isDigit {c : Char} (h : isDigit c = true) : c ≠ '.' := by
  intro hc
  rw [hc] at h
  exact absurd h (by decide)

/-- Appending one character to a digit string multiplies its value by ten
and adds the digit. -/
theorem natOfDigits_append_singleton (a : Str) (c : Char) :
    natOfDigits (a ++ [c]) = 10 * natOfDigits a + (c.toNat - 48) := by
  unfold natOfDigits
  rw [List.foldl_append]
  rfl

/-- With enough fuel, the rendered decimal string is nonempty, all
digits, and evaluates back to the rendered number. -/
theorem renderNatAux_spec :
    ∀ fuel n, n < 10 ^ (fuel + 1) →
      renderNatAux (fuel + 1) n ≠ [] ∧
      (∀ c ∈ renderNatAux (fuel + 1) n, isDigit c = true) ∧
      natOfDigits (renderNatAux (fuel + 1) n) = n := by
  intro fuel
  induction fuel with
  | zero =>
      intro n hn
      have h10 : n < 10 := by simpa using hn
      refine ⟨by simp [renderNatAux, h10], ?_, ?_⟩
      · intro c hc
        simp only [renderNatAux, if_pos h10, List.mem_singleton] at hc
        exact hc ▸ (digitChar_props h10).1
      · simp [renderNatAux, if_pos h10, natOfDigits, digitChar_toNat h10]
  | succ fuel ih =>
      intro n hn
      by_cases h10 : n < 10
      · refine ⟨by simp [renderNatAux, h10], ?_, ?_⟩
        · intro c hc
          simp only [renderNatAux, if_pos h10, List.mem_singleton] at hc
          exact hc ▸ (digitChar_props h10).1
        · simp [renderNatAux, if_pos h10, natOfDigits, digitChar_toNat h10]
      · have hdiv : n / 10 < 10 ^ (fuel + 1) := by
          rw [Nat.div_lt_iff_lt_mul (by norm_num)]
          calc n < 10 ^ (fuel + 1 + 1) := hn
            _ = 10 ^ (fuel + 1) * 10 := by ring
        obtain ⟨hne, hdig, hval⟩ := ih (n / 10) hdiv
        have hmod : n % 10 < 10 := Nat.mod_lt _ (by norm_num)
        have hstep : renderNatAux (fuel + 1 + 1) n =
            renderNatAux (fuel + 1) (n / 10) ++ [digitChar (n % 10)] := by
          conv_lhs => rw [renderNatAux]
          rw [if_neg h10]
        refine ⟨by rw [hstep]; simp, ?_, ?_⟩
        · intro c hc
          rw [hstep] at hc
          rcases List.mem_append.mp hc with hc | hc
          · exact hdig c hc
          · obtain rfl := List.mem_singleton.mp hc
            exact (digitChar_props hmod).1
        · rw [hstep, natOfDigits_append_singleton, hval, digitChar_toNat hmod]
          omega

/-- `renderNat` output is nonempty, all digits, and parses back. -/
theorem renderNat_spec (n : ℕ) :
    renderNat n ≠ [] ∧ (∀ c ∈ renderNat n, isDigit c = true) ∧
      natOfDigits (renderNat n) = n := by
  unfold renderNat
  exact renderNatAux_spec n n (lt_of_lt_of_le (Nat.lt_pow_self (by norm_num) n)
    (Nat.pow_le_pow_right (by norm_num) (Nat.le_succ n)))

/-- `parseNat` inverts `renderNat`. -/
theorem parseNat_renderNat (n : ℕ) : parseNat (renderNat n) = some n := by
  obtain ⟨hne, hdig, hval⟩ := renderNat_spec n
  unfold parseNat
  rw [if_pos ⟨hne, by rw [List.all_eq_true]; exact hdig⟩, hval]

/-- Splitting `u ++ '.' :: v` at the single dot recovers the parts. -/
theorem append_dot_inj :
    ∀ {u1 : Str} {v1 : Str} {u2 : Str} {v2 : Str}, '.' ∉ u1 → '.' ∉ u2 →
      u1 ++ '.' :: v1 = u2 ++ '.' :: v2 → u1 = u2 ∧ v1 = v2 := by
  intro u1
  induction u1 with
  | nil =>
      intro v1 u2 v2 _ h2 h
      cases u2 with
      | nil => simpa using h
      | cons c cs =>
          simp only [List.nil_append, List.cons_append, List.cons_eq_cons] at h
          exact absurd (h.1 ▸ List.mem_cons_self c cs) (h.1 ▸ h2)
  | cons c cs ih =>
      intro v1 u2 v2 h1 h2 h
      cases u2 with
      | nil =>
          simp only [List.nil_append, List.cons_append, List.cons_eq_cons] at h
          exact absurd (h.1 ▸ List.mem_cons_self c cs) (fun hm => h1 (h.1 ▸ hm))
      | cons d ds =>
          simp only [List.cons_append, List.cons_eq_cons] at h
          obtain ⟨hu, hv⟩ := ih (fun hm => h1 (List.mem_cons_of_mem _ hm))
            (fun hm => h2 (List.mem_cons_of_mem _ hm)) h.2
          exact ⟨by rw [h.1, hu], hv⟩

/-- A leading zero does not change the value of a digit string. -/
theorem natOfDigits_zero_cons (l : Str) :
    natOfDigits ('0' :: l) = natOfDigits l := rfl

/-- The value of the two-digit padded rendering. -/
theorem natOfDigits_pad2 (m : ℕ) : natOfDigits (pad2 m) = m := by
  unfold pad2
  by_cases h10 : m < 10
  · rw [if_pos h10, natOfDigits_zero_cons]
    exact (renderNat_spec m).2.2
  · rw [if_neg h10]
    exact (renderNat_spec m).2.2

/-- `pad2` produces digit characters only. -/
theorem pad2_digits (m : ℕ) : ∀ c ∈ pad2 m, isDigit c = true := by
  unfold pad2
  by_cases h10 : m < 10
  · rw [if_pos h10]
    intro c hc
    rcases List.mem_cons.mp hc with hc | hc
    · rw [hc]; decide
    · exact (renderNat_spec m).2.1 c hc
  · rw [if_neg h10]
    exact (renderNat_spec m).2.1

/-! ### C7: per-cut working directories -/

/-- Equal two-decimal renderings of nonnegative rationals force equal
rounded hundredths. -/
theorem roundedHundredths_eq_of_format2f_eq {q1 q2 : ℚ}
    (h1 : 0 ≤ q1.num) (h2 : 0 ≤ q2.num) (h : format2f q1 = format2f q2) :
    roundedHundredths q1 = roundedHundredths q2 := by
  unfold format2f at h
  rw [if_neg (by omega), if_neg (by omega), List.nil_append,
    List.nil_append] at h
  obtain ⟨hi, hf⟩ := append_dot_inj
    (fun hm => absurd ((renderNat_spec _).2.1 _ hm) (by simp [isDigit]))
    (fun hm => absurd ((renderNat_spec _).2.1 _ hm) (by simp [isDigit])) h
  have hiv : roundedHundredths q1 / 100 = roundedHundredths q2 / 100 := by
    have := congrArg natOfDigits hi
    rwa [(renderNat_spec _).2.2, (renderNat_spec _).2.2] at this
  have hfv : roundedHundredths q1 % 100 = roundedHundredths q2 % 100 := by
    have := congrArg natOfDigits hf
    rwa [natOfDigits_pad2, natOfDigits_pad2] at this
  omega

/-- C7 counterexample: the cut values 1.23 and 1.234 are distinct, yet
`"cut_{:.2f}"` names the same directory for both, so the two evaluations
of one search reuse (and `shutil.rmtree` overwrite) the same folder. -/
theorem cut_folder_collision_cex :
    cutFolder "mkpotcar_Ga_p".toList (mkRat 123 100) =
      cutFolder "mkpotcar_Ga_p".toList (mkRat 617 500) ∧
    mkRat 123 100 ≠ mkRat 617 500 := by decide

/-- C7 amended: two cut evaluations of one search get distinct working
directories exactly as far as the two-decimal format distinguishes them:
for nonnegative cuts whose values rounded to hundredths (half to even)
differ, the directories are distinct. -/
theorem cut_folder_distinct_of_rounded_ne (base : Str) (c1 c2 : ℚ)
    (h1 : 0 ≤ c1.num) (h2 : 0 ≤ c2.num)
    (hne : roundedHundredths c1 ≠ roundedHundredths c2) :
    cutFolder base c1 ≠ cutFolder base c2 := by
  intro h
  apply hne
  apply roundedHundredths_eq_of_format2f_eq h1 h2
  unfold cutFolder pathJoin at h
  have h' := List.append_cancel_left h
  injection h' with _ h''
  exact List.append_cancel_left h''

/-- C7 witness: cuts 1.23 and 1.24 get distinct directories. -/
theorem cut_folder_distinct_of_rounded_ne_witness :
    cutFolder "mkpotcar_Ga_p".toList (mkRat 123 100) ≠
      cutFolder "mkpotcar_Ga_p".toList (mkRat 124 100) :=
  cut_folder_distinct_of_rounded_ne _ _ _ (by decide) (by decide) (by decide)

/-! ### C9: `minimum_setup` -/

/-- Every entry of the default electronic-distribution table parses: the
counts line yields the two orbital counts and every remaining line is a
well-formed valence-orbital line. -/
theorem ed_entries_wellformed :
    ∀ p ∈ ElectronicDistribution, (edEntryCounts p.2).isSome = true ∧
      ((p.2.drop 1).mapM parse_valence_orbitals).isOk = true := by decide

/-- C9: `minimum_setup` raises the unknown-element error exactly when
the symbol is absent from the electronic-distribution table, and when
the symbol is present (and the other arguments pass the constructor's
validation) it returns an `InputFile` seeded from the table's entry. -/
theorem minimum_setup_lookup_spec (s xc cc : Str) (mi : ℤ)
    (hxc : xcRegexMatches xc = true) (hcc : calcRegexMatches cc = true) :
    (edLookup s = none → minimum_setup s xc mi cc =
      Except.error (PyErr.valueError
        "This element its not available in our database")) ∧
    (∀ ed, edLookup s = some ed → s ∈ PeriodicTable →
      ∃ nc nv orbs, edEntryCounts ed = some (nc, nv) ∧
        (ed.drop 1).mapM parse_valence_orbitals = Except.ok orbs ∧
        minimum_setup s xc mi cc = Except.ok
          { exchange_correlation_type := xc, calculation_code := cc,
            description := s, chemical_symbol := capitalize s,
            esoteric_line :=
              "       0.0       0.0       0.0       0.0       0.0       0.0\n".toList,
            number_core_orbitals := nc, number_valence_orbitals := nv,
            valence_orbitals := orbs,
            last_lines := [renderInt mi ++ " maxit\n".toList] }) := by
  constructor
  · intro h
    simp [minimum_setup, h, Bind.bind, Except.bind]
  · intro ed hed hpt
    obtain ⟨p, hpmem, hp2⟩ : ∃ p ∈ ElectronicDistribution, p.2 = ed := by
      unfold edLookup at hed
      cases hfind : ElectronicDistribution.find? (fun p => decide (p.1 = s)) with
      | none => rw [hfind] at hed; simp at hed
      | some p =>
          rw [hfind] at hed
          simp at hed
          exact ⟨p, List.mem_of_find?_eq_some hfind, hed⟩
    obtain ⟨hcounts, horbs⟩ := ed_entries_wellformed p hpmem
    rw [hp2] at hcounts horbs
    obtain ⟨⟨nc, nv⟩, hc⟩ := Option.isSome_iff_exists.mp hcounts
    obtain ⟨orbs, ho⟩ : ∃ orbs,
        (ed.drop 1).mapM parse_valence_orbitals = Except.ok orbs := by
      cases hcase : (ed.drop 1).mapM parse_valence_orbitals with
      | ok orbs => exact ⟨orbs, rfl⟩
      | error e => rw [hcase] at horbs; simp [Except.isOk, Except.toBool] at horbs
    refine ⟨nc, nv, orbs, hc, ho, ?_⟩
    simp only [minimum_setup, Bind.bind, Except.bind, hed]
    simp only [mkInputFile, Bind.bind, Except.bind,
      exchange_correlation_type_set, hxc, calculation_code_set, hcc,
      chemical_symbol_set, if_pos hpt, if_true, pure, Except.pure]
    rw [hc, ho]
    rfl

/-- C9 witness: the unknown symbol `Xx` raises the unknown-element
error, while `H` produces an input file seeded from the table. -/
theorem minimum_setup_lookup_spec_witness :
    minimum_setup "Xx".toList "pb".toList 100 "ae".toList =
      Except.error (PyErr.valueError
        "This element its not available in our database") ∧
    ∃ f, minimum_setup "H".toList "pb".toList 100 "ae".toList =
      Except.ok f := by
  constructor
  · exact (minimum_setup_lookup_spec "Xx".toList "pb".toList "ae".toList 100
      (by decide) (by decide)).1 (by decide)
  · obtain ⟨nc, nv, orbs, _, _, h⟩ :=
      (minimum_setup_lookup_spec "H".toList "pb".toList "ae".toList 100
        (by decide) (by decide)).2 ["0 1".toList, "1 0 1.00".toList]
        (by decide) (by decide)
    exact ⟨_, h⟩

/-! ### C5: round trip of the builder's serializer.
First the `readlines` model: splitting a concatenation of physical lines
recovers the lines. -/

/-- `splitLinesAux` walks over newline-free text by accumulating it. -/
theorem splitLinesAux_no_nl (w : Str) (hw : '\n' ∉ w) :
    ∀ (acc l : Str),
      splitLinesAux acc (w ++ l) = splitLinesAux (w.reverse ++ acc) l := by
  induction w with
  | nil => intro acc l; simp
  | cons c cs ih =>
      intro acc l
      have hc : c ≠ '\n' := fun h => hw (h ▸ List.mem_cons_self c cs)
      simp only [List.cons_append, splitLinesAux, if_neg hc, List.append_eq]
      rw [ih (fun h => hw (List.mem_cons_of_mem _ h)) (c :: acc) l]
      simp

/-- Splitting after one whole line. -/
theorem splitLines_line_cons {b : Str} (hb : '\n' ∉ b) (r : Str) :
    splitLines ((b ++ ['\n']) ++ r) = (b ++ ['\n']) :: splitLines r := by
  unfold splitLines
  rw [List.append_assoc, List.singleton_append,
    splitLinesAux_no_nl b hb [] ('\n' :: r)]
  simp [splitLinesAux]

/-- Every physical line is newline-free text followed by one newline. -/
theorem physLine_decomp {l : Str} (h : isPhysLine l) :
    ∃ b, l = b ++ ['\n'] ∧ '\n' ∉ b := by
  obtain ⟨hne, hlast, hnl⟩ := h
  refine ⟨l.dropLast, ?_, hnl⟩
  have hdecomp := List.dropLast_append_getLast hne
  rw [List.getLast?_eq_getLast l hne] at hlast
  simp only [Option.some_inj] at hlast
  rw [hlast] at hdecomp
  exact hdecomp.symm

/-- `readlines` recovers the physical lines of their concatenation. -/
theorem splitLines_flatten (ls : List Str) (h : ∀ l ∈ ls, isPhysLine l) :
    splitLines ls.flatten = ls := by
  induction ls with
  | nil => rfl
  | cons l rest ih =>
      obtain ⟨b, rfl, hb⟩ := physLine_decomp (h _ (List.mem_cons_self _ rest))
      rw [List.flatten_cons, splitLines_line_cons hb,
        ih (fun x hx => h x (List.mem_cons_of_mem _ hx))]

/-! Word-splitting lemmas for `str.split()`. -/

/-- `wordsAux` accumulates a whitespace-free chunk. -/
theorem wordsAux_nonspace (w : Str) (hw : ∀ c ∈ w, isSpace c = false) :
    ∀ (acc l : Str), wordsAux acc (w ++ l) = wordsAux (w.reverse ++ acc) l := by
  induction w with
  | nil => intro acc l; simp
  | cons c cs ih =>
      intro acc l
      have hc : isSpace c = false := hw c (List.mem_cons_self c cs)
      simp only [List.cons_append, wordsAux, hc, Bool.false_eq_true, if_false,
        List.append_eq]
      rw [ih (fun x hx => hw x (List.mem_cons_of_mem _ hx)) (c :: acc) l]
      simp

/-- `wordsAux` on all-whitespace input flushes the accumulator. -/
theorem wordsAux_end_spaces (s : Str) (hs : ∀ c ∈ s, isSpace c = true) :
    ∀ acc, wordsAux acc s = if acc = [] then [] else [acc.reverse] := by
  induction s with
  | nil => intro acc; rfl
  | cons c cs ih =>
      intro acc
      have hc : isSpace c = true := hs c (List.mem_cons_self c cs)
      have hcs : ∀ x ∈ cs, isSpace x = true :=
        fun x hx => hs x (List.mem_cons_of_mem _ hx)
      simp only [wordsAux, hc, if_true]
      by_cases ha : acc = [] <;> simp [ha, ih hcs]

/-- Leading whitespace is skipped. -/
theorem wordsAux_skip_spaces (s : Str) (hs : ∀ c ∈ s, isSpace c = true) :
    ∀ l, wordsAux [] (s ++ l) = wordsAux [] l := by
  induction s with
  | nil => intro l; simp
  | cons c cs ih =>
      intro l
      have hc : isSpace c = true := hs c (List.mem_cons_self c cs)
      simp only [List.cons_append, wordsAux, hc, if_true, if_pos rfl]
      exact ih (fun x hx => hs x (List.mem_cons_of_mem _ hx)) l

/-- Leading whitespace disappears from `words`. -/
theorem words_spaces_cons (s : Str) (hs : ∀ c ∈ s, isSpace c = true)
    (l : Str) : words (s ++ l) = words l :=
  wordsAux_skip_spaces s hs l

/-- Trailing whitespace disappears from `wordsAux`. -/
theorem wordsAux_trailing (s : Str) (hs : ∀ c ∈ s, isSpace c = true) :
    ∀ (l acc : Str), wordsAux acc (l ++ s) = wordsAux acc l := by
  intro l
  induction l with
  | nil =>
      intro acc
      rw [List.nil_append, wordsAux_end_spaces s hs acc]
      rfl
  | cons c cs ih =>
      intro acc
      by_cases hc : isSpace c = true
      · simp only [List.cons_append, wordsAux, hc, if_true]
        by_cases ha : acc = [] <;> simp [ha, ih]
      · have hc' : isSpace c = false := by
          cases hcv : isSpace c
          · rfl
          · exact absurd hcv hc
        simp only [List.cons_append, wordsAux, hc', Bool.false_eq_true, if_false]
        exact ih (c :: acc)

/-- Trailing whitespace disappears from `words`. -/
theorem words_trailing (l s : Str) (hs : ∀ c ∈ s, isSpace c = true) :
    words (l ++ s) = words l :=
  wordsAux_trailing s hs l []

/-- Peeling one whitespace-free word followed by whitespace (or the end
of the string). -/
theorem words_word_cons (w : Str) (hw : w ≠ [])
    (hwns : ∀ c ∈ w, isSpace c = false) (l : Str)
    (hl : l = [] ∨ ∃ c cs, l = c :: cs ∧ isSpace c = true) :
    words (w ++ l) = w :: words l := by
  unfold words
  rw [wordsAux_nonspace w hwns [] l]
  rcases hl with rfl | ⟨c, cs, rfl, hc⟩
  · simp [wordsAux, hw]
  · have hne : w.reverse ++ [] ≠ [] := by simp [hw]
    simp only [wordsAux, hc, if_true, if_neg hne]
    simp

/-! Splitting at `=` and at the decimal dot. -/

/-- `splitOnCharAux` accumulates a separator-free chunk. -/
theorem splitOnCharAux_no_sep (sep : Char) (u : Str) (hu : sep ∉ u) :
    ∀ (acc l : Str),
      splitOnCharAux sep acc (u ++ l) = splitOnCharAux sep (u.reverse ++ acc) l := by
  induction u with
  | nil => intro acc l; simp
  | cons c cs ih =>
      intro acc l
      have hc : c ≠ sep := fun h => hu (h ▸ List.mem_cons_self c cs)
      simp only [List.cons_append, splitOnCharAux, if_neg hc, List.append_eq]
      rw [ih (fun h => hu (List.mem_cons_of_mem _ h)) (c :: acc) l]
      simp

/-- `splitOnCharAux` on separator-free input yields one piece. -/
theorem splitOnCharAux_end (sep : Char) (v : Str) (hv : sep ∉ v) :
    ∀ acc, splitOnCharAux sep acc v = [acc.reverse ++ v] := by
  induction v with
  | nil => intro acc; simp [splitOnCharAux]
  | cons c cs ih =>
      intro acc
      have hc : c ≠ sep := fun h => hv (h ▸ List.mem_cons_self c cs)
      simp only [splitOnCharAux, if_neg hc]
      rw [ih (fun h => hv (List.mem_cons_of_mem _ h)) (c :: acc)]
      simp

/-- Splitting a two-part string at its only separator occurrence. -/
theorem splitOnChar_pair (sep : Char) {u v : Str} (hu : sep ∉ u)
    (hv : sep ∉ v) : splitOnChar sep (u ++ sep :: v) = [u, v] := by
  unfold splitOnChar
  rw [splitOnCharAux_no_sep sep u hu [] (sep :: v)]
  simp only [splitOnCharAux, if_pos rfl]
  rw [splitOnCharAux_end sep v hv []]
  simp

/-! Character classes of the rendered text. -/

/-- The characters that appear in rendered numbers are not whitespace,
comment, separator or newline characters. -/
theorem numeric_char_classes {c : Char}
    (h : c = '-' ∨ c = '.' ∨ isDigit c = true) :
    isSpace c = false ∧ c ≠ '#' ∧ c ≠ '=' ∧ c ≠ '\n' ∧ c ≠ '-' ∨
    c = '-' ∧ isSpace c = false ∧ c ≠ '#' ∧ c ≠ '=' ∧ c ≠ '\n' := by
  rcases h with rfl | rfl | h
  · exact Or.inr ⟨rfl, by decide, by decide, by decide, by decide⟩
  · exact Or.inl ⟨by decide, by decide, by decide, by decide, by decide⟩
  · unfold isDigit at h
    rw [decide_eq_true_eq] at h
    refine Or.inl ⟨?_, ?_, ?_, ?_, ?_⟩
    · unfold isSpace
      rw [decide_eq_false_iff_not]
      rintro (rfl | rfl | rfl | rfl | rfl | rfl) <;> revert h <;> decide
    · rintro rfl; revert h; decide
    · rintro rfl; revert h; decide
    · rintro rfl; revert h; decide
    · rintro rfl; revert h; decide

/-- Simplified corollary: rendered-number characters are not whitespace,
`#`, `=`, or newline. -/
theorem numeric_char_basic {c : Char}
    (h : c = '-' ∨ c = '.' ∨ isDigit c = true) :
    isSpace c = false ∧ c ≠ '#' ∧ c ≠ '=' ∧ c ≠ '\n' := by
  rcases numeric_char_classes h with ⟨h1, h2, h3, h4, _⟩ | ⟨_, h1, h2, h3, h4⟩ <;>
    exact ⟨h1, h2, h3, h4⟩

/-- The characters of a rendered integer. -/
theorem renderInt_chars (i : ℤ) :
    renderInt i ≠ [] ∧ ∀ c ∈ renderInt i, c = '-' ∨ isDigit c = true := by
  unfold renderInt
  by_cases h : i < 0
  · rw [if_pos h]
    refine ⟨by simp, ?_⟩
    intro c hc
    rcases List.mem_cons.mp hc with rfl | hc
    · exact Or.inl rfl
    · exact Or.inr ((renderNat_spec _).2.1 c hc)
  · rw [if_neg h]
    exact ⟨(renderNat_spec _).1,
      fun c hc => Or.inr ((renderNat_spec _).2.1 c hc)⟩

/-- A rendered integer has no whitespace. -/
theorem renderInt_noSpace (i : ℤ) : ∀ c ∈ renderInt i, isSpace c = false :=
  fun c hc => (numeric_char_basic (by
    rcases (renderInt_chars i).2 c hc with h | h
    · exact Or.inl h
    · exact Or.inr (Or.inr h))).1

/-- `parseInt` inverts `renderInt`. -/
theorem parseInt_renderInt (i : ℤ) : parseInt (renderInt i) = some i := by
  unfold renderInt parseInt
  by_cases h : i < 0
  · rw [if_pos h]
    simp [parseNat_renderNat, abs_of_neg h]
  · rw [if_neg h]
    obtain ⟨c, cs, hcc⟩ : ∃ c cs, renderNat i.toNat = c :: cs := by
      cases hr : renderNat i.toNat with
      | nil => exact absurd hr (renderNat_spec _).1
      | cons c cs => exact ⟨c, cs, rfl⟩
    have hcd : isDigit c = true :=
      (renderNat_spec _).2.1 c (hcc ▸ List.mem_cons_self c cs)
    have hcm : c ≠ '-' := by
      rintro rfl; exact absurd hcd (by decide)
    have hcp : c ≠ '+' := by
      rintro rfl; exact absurd hcd (by decide)
    rw [hcc]
    rw [if_neg (by simp [hcm]), if_neg (by simp [hcp])]
    rw [← hcc, parseNat_renderNat]
    simp
    omega

/-- `renderNat` of a single-digit number. -/
theorem renderNat_of_lt_ten {m : ℕ} (h : m < 10) :
    renderNat m = [digitChar m] := by
  unfold renderNat renderNatAux
  rw [if_pos h]

/-- On a nonnegative multiple of `1/100` the two-decimal rounding is
exact. -/
theorem roundedHundredths_of_hundredths {q : ℚ} (h : isHundredths q) :
    roundedHundredths q = q.num.natAbs * (100 / q.den) := by
  obtain ⟨hnum, hden⟩ := h
  have hd : q.den ∣ 100 := Nat.dvd_of_mod_eq_zero hden
  have hdpos : 0 < q.den := q.den_pos
  have hdvd : q.den ∣ 100 * q.num.natAbs := Dvd.dvd.mul_right hd _
  have hrem : 100 * q.num.natAbs % q.den = 0 := Nat.mod_eq_zero_of_dvd hdvd
  unfold roundedHundredths
  rw [hrem, if_pos (by omega)]
  rw [Nat.mul_comm 100 q.num.natAbs, Nat.mul_div_assoc _ hd]

/-- The two-digit padding really has two characters. -/
theorem pad2_length {m : ℕ} (h : m < 100) : (pad2 m).length = 2 := by
  unfold pad2
  by_cases h10 : m < 10
  · rw [if_pos h10, renderNat_of_lt_ten h10]
    rfl
  · rw [if_neg h10]
    obtain ⟨f, hf⟩ : ∃ f, m = f + 1 := ⟨m - 1, by omega⟩
    have hm10 : m / 10 < 10 := by omega
    unfold renderNat
    rw [hf]
    conv_lhs => rw [renderNatAux]
    rw [if_neg (by omega : ¬ f + 1 < 10)]
    rw [show f + 1 = f + 1 from rfl]
    conv_lhs => rw [renderNatAux]
    rw [if_pos (by omega : (f + 1) / 10 < 10)]
    rfl

/-- Rebuilding a nonnegative multiple of `1/100` from its rounded
hundredths. -/
theorem mkRat_hundredths {q : ℚ} (h : isHundredths q) :
    mkRat (((q.num.natAbs * (100 / q.den) : ℕ) : ℤ)) 100 = q := by
  obtain ⟨hnum, hden⟩ := h
  have hd : q.den ∣ 100 := Nat.dvd_of_mod_eq_zero hden
  have hdne : q.den ≠ 0 := q.den_nz
  obtain ⟨e, he⟩ := hd
  have h100 : 100 / q.den = e := by
    rw [he]
    exact Nat.mul_div_cancel_left e (Nat.pos_of_ne_zero hdne)
  rw [h100]
  conv_rhs => rw [← Rat.mkRat_self q]
  rw [Rat.mkRat_eq_iff (by norm_num) hdne]
  have habs : |q.num| = q.num := abs_of_nonneg hnum
  have hcastZ : ((q.den : ℤ)) * (e : ℤ) = 100 := by exact_mod_cast he.symm
  push_cast
  rw [habs]
  calc q.num * (e : ℤ) * q.den = q.num * ((q.den : ℤ) * e) := by ring
    _ = q.num * 100 := by rw [hcastZ]

/-- The shape of the two-decimal format of a nonnegative rational. -/
theorem format2f_of_nonneg {q : ℚ} (hnum : 0 ≤ q.num) :
    format2f q = renderNat (roundedHundredths q / 100) ++
      '.' :: pad2 (roundedHundredths q % 100) := by
  unfold format2f
  rw [if_neg (by omega), List.nil_append]

/-- Characters of the two-decimal format. -/
theorem format2f_chars (q : ℚ) : format2f q ≠ [] ∧
    ∀ c ∈ format2f q, c = '-' ∨ c = '.' ∨ isDigit c = true := by
  unfold format2f
  constructor
  · intro hcon
    exact absurd (List.append_eq_nil.mp hcon).2 (by simp)
  · intro c hc
    rcases List.mem_append.mp hc with hc | hc
    · rcases List.mem_append.mp hc with hc | hc
      · by_cases hq : q.num < 0
        · rw [if_pos hq] at hc
          exact Or.inl (List.mem_singleton.mp hc)
        · rw [if_neg hq] at hc
          exact absurd hc (List.not_mem_nil c)
      · exact Or.inr (Or.inr ((renderNat_spec _).2.1 c hc))
    · rcases List.mem_cons.mp hc with rfl | hc
      · exact Or.inr (Or.inl rfl)
      · exact Or.inr (Or.inr (pad2_digits _ c hc))

/-- `parseFloat` inverts the two-decimal format on nonnegative multiples
of `1/100`. -/
theorem parseFloat_format2f {q : ℚ} (h : isHundredths q) :
    parseFloat (format2f q) = some q := by
  rw [format2f_of_nonneg h.1]
  obtain ⟨c, cs, hcc⟩ : ∃ c cs,
      renderNat (roundedHundredths q / 100) = c :: cs := by
    cases hr : renderNat (roundedHundredths q / 100) with
    | nil => exact absurd hr (renderNat_spec _).1
    | cons c cs => exact ⟨c, cs, rfl⟩
  have hcd : isDigit c = true :=
    (renderNat_spec _).2.1 c (hcc ▸ List.mem_cons_self c cs)
  have hdot1 : '.' ∉ renderNat (roundedHundredths q / 100) :=
    fun hm => absurd ((renderNat_spec _).2.1 _ hm) (by decide)
  have hdot2 : '.' ∉ pad2 (roundedHundredths q % 100) :=
    fun hm => absurd (pad2_digits _ _ hm) (by decide)
  have hsplit : splitOnChar '.' (renderNat (roundedHundredths q / 100) ++
      '.' :: pad2 (roundedHundredths q % 100)) =
      [renderNat (roundedHundredths q / 100),
       pad2 (roundedHundredths q % 100)] :=
    splitOnChar_pair '.' hdot1 hdot2
  unfold parseFloat
  rw [hcc, List.cons_append, List.head?_cons]
  rw [if_neg (by
    simp only [Option.some_inj]
    rintro rfl
    exact absurd hcd (by decide))]
  rw [if_neg (by
    simp only [Option.some_inj]
    rintro rfl
    exact absurd hcd (by decide))]
  rw [← List.cons_append, ← hcc]
  unfold parseFloatCore
  rw [hsplit]
  simp only []
  rw [if_pos ⟨⟨List.all_eq_true.mpr (renderNat_spec _).2.1,
      List.all_eq_true.mpr (pad2_digits _)⟩,
    Or.inl (renderNat_spec _).1⟩]
  rw [(renderNat_spec _).2.2, natOfDigits_pad2,
    pad2_length (Nat.mod_lt _ (by norm_num))]
  have hval : qOfDecimal (roundedHundredths q / 100)
      (roundedHundredths q % 100) 2 =
      mkRat ((roundedHundredths q : ℕ) : ℤ) 100 := by
    unfold qOfDecimal
    congr 1
    rw [show ((10 : ℤ) ^ 2) = 100 from by norm_num]
    omega
  rw [hval, roundedHundredths_of_hundredths h, mkRat_hundredths h]

/-- `floatOfToken` on a serialized occupation. -/
theorem floatOfToken_format2f {q : ℚ} (h : isHundredths q) :
    floatOfToken (format2f q) = Except.ok q := by
  unfold floatOfToken
  rw [parseFloat_format2f h]

/-! Physical-line and comment facts about the serialized lines. -/

/-- Whitespace-free text contains no newline. -/
theorem not_nl_of_noSpace {s : Str} (h : noSpace s) : '\n' ∉ s := by
  intro hm
  exact absurd (h _ hm) (by decide)

/-- Newline-free text closed by a newline is a physical line. -/
theorem isPhysLine_append_nl {b : Str} (hb : '\n' ∉ b) :
    isPhysLine (b ++ ['\n']) := by
  refine ⟨by simp, ?_, ?_⟩
  · rw [List.getLast?_concat]
  · rw [List.dropLast_concat]
    exact hb

/-- Membership in a separator join. -/
theorem mem_sepJoin {c : Char} {sep : Str} :
    ∀ {ws : List Str}, c ∈ sepJoin sep ws → c ∈ sep ∨ ∃ w ∈ ws, c ∈ w := by
  intro ws
  induction ws with
  | nil => intro h; exact absurd h (List.not_mem_nil c)
  | cons x xs ih =>
      intro h
      cases xs with
      | nil => exact Or.inr ⟨x, List.mem_singleton.mpr rfl, h⟩
      | cons y ys =>
          rw [show sepJoin sep (x :: y :: ys) =
            x ++ sep ++ sepJoin sep (y :: ys) from rfl] at h
          rcases List.mem_append.mp h with h | h
          · rcases List.mem_append.mp h with h | h
            · exact Or.inr ⟨x, List.mem_cons_self x _, h⟩
            · exact Or.inl h
          · rcases ih h with h | ⟨w, hw, hcw⟩
            · exact Or.inl h
            · exact Or.inr ⟨w, List.mem_cons_of_mem _ hw, hcw⟩

/-- Dropping whitespace drops an all-whitespace prefix. -/
theorem dropWhile_spaces_append (s : Str)
    (hs : ∀ c ∈ s, isSpace c = true) (l : Str) :
    (s ++ l).dropWhile isSpace = l.dropWhile isSpace := by
  induction s with
  | nil => simp
  | cons c cs ih =>
      rw [List.cons_append, List.dropWhile_cons_of_pos
        (hs c (List.mem_cons_self c cs))]
      exact ih (fun x hx => hs x (List.mem_cons_of_mem _ hx))

/-- A line of whitespace, a safe character, and a tail is not a
comment. -/
theorem notComment_of_shape {s : Str} {c : Char} {r : Str}
    (hs : ∀ x ∈ s, isSpace x = true) (hc : isSpace c = false)
    (hch : c ≠ '#') : notComment (s ++ c :: r) := by
  unfold notComment
  rw [dropWhile_spaces_append s hs, List.dropWhile_cons_of_neg (by simp [hc])]
  simpa using hch

/-- `drop_comments` keeps a list of non-comment lines. -/
theorem drop_comments_eq_self {ls : List Str}
    (h : ∀ l ∈ ls, notComment l) : drop_comments ls = ls := by
  unfold drop_comments
  rw [List.filter_eq_self]
  intro l hl
  rw [decide_eq_true_eq]
  exact h l hl

/-- The serialized list concatenates to the physical-line
concatenation. -/
theorem to_file_content_eq (f : InputFile) :
    to_file_content f = (fileLines f).flatten := by
  unfold to_file_content to_stringlist fileLines line0 line1 line3
  simp [List.append_assoc]

/-! Token shapes of the serialized lines. -/

/-- The words of a line holding two whitespace-separated words. -/
theorem words_two_words (w1 w2 s1 s2 : Str)
    (hs1 : ∀ c ∈ s1, isSpace c = true) (hs2 : ∀ c ∈ s2, isSpace c = true)
    (hs2ne : s2 ≠ []) (h1 : w1 ≠ []) (h1s : noSpace w1) (h2 : w2 ≠ [])
    (h2s : noSpace w2) :
    words (s1 ++ (w1 ++ (s2 ++ (w2 ++ ['\n'])))) = [w1, w2] := by
  obtain ⟨c2, cs2, rfl⟩ : ∃ c2 cs2, s2 = c2 :: cs2 := by
    cases s2 with
    | nil => exact absurd rfl hs2ne
    | cons c2 cs2 => exact ⟨c2, cs2, rfl⟩
  rw [words_spaces_cons s1 hs1]
  rw [words_word_cons w1 h1 h1s ((c2 :: cs2) ++ (w2 ++ ['\n']))
    (Or.inr ⟨c2, cs2 ++ (w2 ++ ['\n']), rfl,
      hs2 c2 (List.mem_cons_self c2 cs2)⟩)]
  rw [words_spaces_cons (c2 :: cs2) hs2]
  rw [words_word_cons w2 h2 h2s ['\n'] (Or.inr ⟨'\n', [], rfl, by decide⟩)]
  rfl

/-- The tokens of the first serialized line. -/
theorem words_line0 (f : InputFile) (hcal : noSpace f.calculation_code)
    (hcne : f.calculation_code ≠ []) :
    words (line0 f) = f.calculation_code :: words f.description := by
  unfold line0
  simp only [List.append_assoc]
  rw [words_spaces_cons "   ".toList (by decide)]
  rw [words_word_cons f.calculation_code hcne hcal
    ("      ".toList ++ (f.description ++ ['\n']))
    (Or.inr ⟨' ', "     ".toList ++ (f.description ++ ['\n']), rfl, by decide⟩)]
  rw [words_spaces_cons "      ".toList (by decide)]
  rw [words_trailing f.description ['\n'] (by decide)]

/-- The tokens of the `n=`/`c=` line. -/
theorem words_line1 (f : InputFile) (hsym : noSpace f.chemical_symbol)
    (hxcsp : noSpace f.exchange_correlation_type) :
    words (line1 f) = ['n' :: '=' :: f.chemical_symbol,
      'c' :: '=' :: f.exchange_correlation_type] := by
  have hw1 : ('n' :: '=' :: f.chemical_symbol) ≠ [] := by simp
  have hw1s : noSpace ('n' :: '=' :: f.chemical_symbol) := by
    intro c hc
    rcases List.mem_cons.mp hc with rfl | hc
    · decide
    rcases List.mem_cons.mp hc with rfl | hc
    · decide
    exact hsym c hc
  have hw2 : ('c' :: '=' :: f.exchange_correlation_type) ≠ [] := by simp
  have hw2s : noSpace ('c' :: '=' :: f.exchange_correlation_type) := by
    intro c hc
    rcases List.mem_cons.mp hc with rfl | hc
    · decide
    rcases List.mem_cons.mp hc with rfl | hc
    · decide
    exact hxcsp c hc
  unfold line1
  by_cases hlen : f.chemical_symbol.length = 2
  · rw [if_pos hlen]
    simp only [List.append_assoc]
    rw [show " n=".toList ++ (f.chemical_symbol ++ (" c=".toList ++
        (f.exchange_correlation_type ++ ['\n']))) =
      [' '] ++ (('n' :: '=' :: f.chemical_symbol) ++ ([' '] ++
        (('c' :: '=' :: f.exchange_correlation_type) ++ ['\n']))) from rfl]
    exact words_two_words _ _ [' '] [' '] (by decide) (by decide) (by simp)
      hw1 hw1s hw2 hw2s
  · rw [if_neg hlen]
    simp only [List.append_assoc]
    rw [show " n=".toList ++ (f.chemical_symbol ++ ("  c=".toList ++
        (f.exchange_correlation_type ++ ['\n']))) =
      [' '] ++ (('n' :: '=' :: f.chemical_symbol) ++ ([' ', ' '] ++
        (('c' :: '=' :: f.exchange_correlation_type) ++ ['\n']))) from rfl]
    exact words_two_words _ _ [' '] [' ', ' '] (by decide) (by decide)
      (by simp) hw1 hw1s hw2 hw2s

/-- The tokens of the orbital-count line. -/
theorem words_line3 (f : InputFile) :
    words (line3 f) = [renderInt f.number_core_orbitals,
      renderInt f.number_valence_orbitals] := by
  unfold line3
  by_cases hn : f.number_core_orbitals ≤ 9
  · rw [if_pos hn]
    simp only [List.append_assoc]
    exact words_two_words _ _ "    ".toList "    ".toList (by decide)
      (by decide) (by decide) (renderInt_chars _).1 (renderInt_noSpace _)
      (renderInt_chars _).1 (renderInt_noSpace _)
  · rw [if_neg hn]
    simp only [List.append_assoc]
    exact words_two_words _ _ "   ".toList "    ".toList (by decide)
      (by decide) (by decide) (renderInt_chars _).1 (renderInt_noSpace _)
      (renderInt_chars _).1 (renderInt_noSpace _)

/-- The words of the joined, two-decimal occupation values. -/
theorem words_sepJoin_nl (ws : List Str)
    (h : ∀ w ∈ ws, w ≠ [] ∧ ∀ c ∈ w, isSpace c = false) :
    words (sepJoin "      ".toList ws ++ ['\n']) = ws := by
  induction ws with
  | nil => rfl
  | cons x xs ih =>
      cases xs with
      | nil =>
          obtain ⟨hxne, hxs⟩ := h x (List.mem_cons_self x [])
          rw [show sepJoin "      ".toList [x] = x from rfl]
          rw [words_word_cons x hxne hxs ['\n'] (Or.inr ⟨'\n', [], rfl, by decide⟩)]
          rfl
      | cons y ys =>
          obtain ⟨hxne, hxs⟩ := h x (List.mem_cons_self x _)
          rw [show sepJoin "      ".toList (x :: y :: ys) =
            x ++ "      ".toList ++ sepJoin "      ".toList (y :: ys) from rfl]
          simp only [List.append_assoc]
          rw [words_word_cons x hxne hxs
            ("      ".toList ++ (sepJoin "      ".toList (y :: ys) ++ ['\n']))
            (Or.inr ⟨' ', "     ".toList ++
              (sepJoin "      ".toList (y :: ys) ++ ['\n']), rfl, by decide⟩)]
          rw [words_spaces_cons "      ".toList (by decide)]
          rw [ih (fun w hw => h w (List.mem_cons_of_mem _ hw))]

/-- The tokens of a serialized orbital line. -/
theorem words_orbitalLine (o : Orbital) :
    words (orbitalLine o) = renderInt o.n :: renderInt o.l ::
      o.occupation.map format2f := by
  unfold orbitalLine
  simp only [List.append_assoc]
  rw [words_spaces_cons "    ".toList (by decide)]
  rw [words_word_cons (renderInt o.n) (renderInt_chars _).1
    (renderInt_noSpace _)
    ("    ".toList ++ (renderInt o.l ++ ("      ".toList ++
      (sepJoin "      ".toList (o.occupation.map format2f) ++ ['\n']))))
    (Or.inr ⟨' ', "   ".toList ++ (renderInt o.l ++ ("      ".toList ++
      (sepJoin "      ".toList (o.occupation.map format2f) ++ ['\n']))),
      rfl, by decide⟩)]
  rw [words_spaces_cons "    ".toList (by decide)]
  rw [words_word_cons (renderInt o.l) (renderInt_chars _).1
    (renderInt_noSpace _)
    ("      ".toList ++
      (sepJoin "      ".toList (o.occupation.map format2f) ++ ['\n']))
    (Or.inr ⟨' ', "     ".toList ++
      (sepJoin "      ".toList (o.occupation.map format2f) ++ ['\n']),
      rfl, by decide⟩)]
  rw [words_spaces_cons "      ".toList (by decide)]
  rw [words_sepJoin_nl (o.occupation.map format2f) ?hws]
  case hws =>
    intro w hw
    obtain ⟨q, _, rfl⟩ := List.mem_map.mp hw
    refine ⟨(format2f_chars q).1, ?_⟩
    intro c hc
    exact (numeric_char_basic ((format2f_chars q).2 c hc)).1

/-! Parse results on the serialized lines. -/

/-- A validated calculation code starts with `ae`. -/
theorem calc_shape {s : Str} (h : calcRegexMatches s = true) :
    ∃ t, s = 'a' :: 'e' :: t := by
  unfold calcRegexMatches at h
  rw [List.isPrefixOf_iff_prefix] at h
  obtain ⟨t, ht⟩ := h
  exact ⟨t, by rw [← ht]; rfl⟩

/-- Parsing the serialized two-decimal occupations. -/
theorem mapM_floatOfToken_format2f (qs : List ℚ)
    (h : ∀ q ∈ qs, isHundredths q) :
    (qs.map format2f).mapM floatOfToken = Except.ok qs := by
  induction qs with
  | nil => rfl
  | cons q qs ih =>
      rw [List.map_cons, List.mapM_cons,
        floatOfToken_format2f (h q (List.mem_cons_self q qs)),
        ih (fun x hx => h x (List.mem_cons_of_mem _ hx))]
      rfl

/-- A serialized orbital line parses back to the orbital. -/
theorem parse_valence_orbitals_orbitalLine (o : Orbital)
    (hocc : ∀ q ∈ o.occupation, isHundredths q) :
    parse_valence_orbitals (orbitalLine o) = Except.ok o := by
  have hn : intOfToken (renderInt o.n) = Except.ok o.n := by
    unfold intOfToken
    rw [parseInt_renderInt]
  have hl : intOfToken (renderInt o.l) = Except.ok o.l := by
    unfold intOfToken
    rw [parseInt_renderInt]
  simp only [parse_valence_orbitals, words_orbitalLine, hn, hl,
    mapM_floatOfToken_format2f o.occupation hocc, Bind.bind, Except.bind,
    pure, Except.pure]

/-- Every physical line of a well-formed file is a single
newline-terminated line. -/
theorem fileLines_physLines (f : InputFile) (h : wellFormed f) :
    ∀ l ∈ fileLines f, isPhysLine l := by
  obtain ⟨⟨hcalsp, _⟩, ⟨_, hdnl⟩, ⟨_, hssp, _, _, _⟩, ⟨_, hxsp, _, _⟩,
    ⟨heso, _⟩, _, _, hlast⟩ := h
  intro l hl
  unfold fileLines at hl
  rcases List.mem_cons.mp hl with rfl | hl
  · unfold line0
    apply isPhysLine_append_nl
    intro hm
    rcases List.mem_append.mp hm with hm | hm
    · rcases List.mem_append.mp hm with hm | hm
      · rcases List.mem_append.mp hm with hm | hm
        · exact absurd hm (by decide)
        · exact not_nl_of_noSpace hcalsp hm
      · exact absurd hm (by decide)
    · exact hdnl hm
  rcases List.mem_cons.mp hl with rfl | hl
  · unfold line1
    apply isPhysLine_append_nl
    intro hm
    rcases List.mem_append.mp hm with hm | hm
    · rcases List.mem_append.mp hm with hm | hm
      · rcases List.mem_append.mp hm with hm | hm
        · exact absurd hm (by decide)
        · exact not_nl_of_noSpace hssp hm
      · by_cases hlen : f.chemical_symbol.length = 2
        · rw [if_pos hlen] at hm
          exact absurd hm (by decide)
        · rw [if_neg hlen] at hm
          exact absurd hm (by decide)
    · exact not_nl_of_noSpace hxsp hm
  rcases List.mem_cons.mp hl with rfl | hl
  · exact heso
  rcases List.mem_cons.mp hl with rfl | hl
  · unfold line3
    apply isPhysLine_append_nl
    intro hm
    rcases List.mem_append.mp hm with hm | hm
    · rcases List.mem_append.mp hm with hm | hm
      · rcases List.mem_append.mp hm with hm | hm
        · by_cases hn : f.number_core_orbitals ≤ 9
          · rw [if_pos hn] at hm
            exact absurd hm (by decide)
          · rw [if_neg hn] at hm
            exact absurd hm (by decide)
        · exact not_nl_of_noSpace (renderInt_noSpace _) hm
      · exact absurd hm (by decide)
    · exact not_nl_of_noSpace (renderInt_noSpace _) hm
  rcases List.mem_append.mp hl with hl | hl
  · obtain ⟨o, _, rfl⟩ := List.mem_map.mp hl
    unfold orbitalLine
    apply isPhysLine_append_nl
    intro hm
    rcases List.mem_append.mp hm with hm | hm
    · rcases List.mem_append.mp hm with hm | hm
      · rcases List.mem_append.mp hm with hm | hm
        · rcases List.mem_append.mp hm with hm | hm
          · rcases List.mem_append.mp hm with hm | hm
            · exact absurd hm (by decide)
            · exact not_nl_of_noSpace (renderInt_noSpace _) hm
          · exact absurd hm (by decide)
        · exact not_nl_of_noSpace (renderInt_noSpace _) hm
      · exact absurd hm (by decide)
    · rcases mem_sepJoin hm with hm | ⟨w, hw, hcw⟩
      · exact absurd hm (by decide)
      · obtain ⟨q, _, rfl⟩ := List.mem_map.mp hw
        exact absurd rfl
          (numeric_char_basic ((format2f_chars q).2 _ hcw)).2.2.2
  · exact (hlast l hl).1

/-- No physical line of a well-formed file is dropped as a comment. -/
theorem fileLines_notComment (f : InputFile) (h : wellFormed f) :
    ∀ l ∈ fileLines f, notComment l := by
  obtain ⟨⟨_, hcalre⟩, _, _, _, ⟨_, hesoc⟩, _, _, hlast⟩ := h
  intro l hl
  unfold fileLines at hl
  rcases List.mem_cons.mp hl with rfl | hl
  · obtain ⟨t, ht⟩ := calc_shape hcalre
    unfold line0
    rw [ht]
    simp only [List.append_assoc, List.cons_append]
    exact notComment_of_shape (by decide) (by decide) (by decide)
  rcases List.mem_cons.mp hl with rfl | hl
  · unfold line1
    simp only [List.append_assoc]
    rw [show " n=".toList ++ (f.chemical_symbol ++
        ((if f.chemical_symbol.length = 2 then " c=".toList
          else "  c=".toList) ++ (f.exchange_correlation_type ++ ['\n']))) =
      [' '] ++ 'n' :: ('=' :: (f.chemical_symbol ++
        ((if f.chemical_symbol.length = 2 then " c=".toList
          else "  c=".toList) ++ (f.exchange_correlation_type ++ ['\n']))))
      from rfl]
    exact notComment_of_shape (by decide) (by decide) (by decide)
  rcases List.mem_cons.mp hl with rfl | hl
  · exact hesoc
  rcases List.mem_cons.mp hl with rfl | hl
  · obtain ⟨c, cs, hcc⟩ : ∃ c cs,
        renderInt f.number_core_orbitals = c :: cs := by
      cases hr : renderInt f.number_core_orbitals with
      | nil => exact absurd hr (renderInt_chars _).1
      | cons c cs => exact ⟨c, cs, rfl⟩
    have hcls := (renderInt_chars f.number_core_orbitals).2 c
      (hcc ▸ List.mem_cons_self c cs)
    have hbasic := numeric_char_basic (by
      rcases hcls with h' | h'
      · exact Or.inl h'
      · exact Or.inr (Or.inr h'))
    unfold line3
    rw [hcc]
    simp only [List.append_assoc, List.cons_append]
    by_cases hn : f.number_core_orbitals ≤ 9
    · rw [if_pos hn]
      exact notComment_of_shape (by decide) hbasic.1 hbasic.2.1
    · rw [if_neg hn]
      exact notComment_of_shape (by decide) hbasic.1 hbasic.2.1
  rcases List.mem_append.mp hl with hl | hl
  · obtain ⟨o, _, rfl⟩ := List.mem_map.mp hl
    obtain ⟨c, cs, hcc⟩ : ∃ c cs, renderInt o.n = c :: cs := by
      cases hr : renderInt o.n with
      | nil => exact absurd hr (renderInt_chars _).1
      | cons c cs => exact ⟨c, cs, rfl⟩
    have hcls := (renderInt_chars o.n).2 c (hcc ▸ List.mem_cons_self c cs)
    have hbasic := numeric_char_basic (by
      rcases hcls with h' | h'
      · exact Or.inl h'
      · exact Or.inr (Or.inr h'))
    unfold orbitalLine
    rw [hcc]
    simp only [List.append_assoc, List.cons_append]
    exact notComment_of_shape (by decide) hbasic.1 hbasic.2.1
  · exact (hlast l hl).2

/-- Indexing into the orbital block of the serialized file. -/
theorem fileLines_getElem_orbital (f : InputFile) (i : ℕ)
    (hi : i < f.valence_orbitals.length) :
    (fileLines f)[4 + i]? =
      some (orbitalLine (f.valence_orbitals.get ⟨i, hi⟩)) := by
  have h4 : (fileLines f)[4 + i]? =
      (f.valence_orbitals.map orbitalLine ++ f.last_lines)[i]? := by
    rw [show 4 + i = i + 4 from by omega]
    unfold fileLines
    simp only [List.getElem?_cons_succ]
  rw [h4, List.getElem?_append_left (by simpa using hi), List.getElem?_map,
    List.getElem?_eq_getElem hi]
  rfl

/-- `mapM` over an index range, when every index yields the
corresponding element. -/
theorem mapM_range'_option {α : Type} (F : ℕ → Option α) :
    ∀ (os : List α) (k : ℕ),
      (∀ i (hi : i < os.length), F (k + i) = some (os.get ⟨i, hi⟩)) →
      (List.range' k os.length).mapM F = some os := by
  intro os
  induction os with
  | nil => intro k _; rfl
  | cons o os ih =>
      intro k h
      rw [List.length_cons, List.range'_succ, List.mapM_cons]
      have h0 := h 0 (by simp)
      rw [Nat.add_zero] at h0
      rw [h0]
      rw [ih (k + 1) (fun i hi => by
        have := h (i + 1) (by simpa using Nat.succ_lt_succ hi)
        rwa [show k + (i + 1) = k + 1 + i from by omega] at this)]
      rfl

/-- The round trip recovers the full parsed structure on well-formed
files. -/
theorem from_file_roundtrip (f : InputFile) (h : wellFormed f) :
    from_file (to_file_content f) = Except.ok f := by
  have hphys := fileLines_physLines f h
  have hncom := fileLines_notComment f h
  obtain ⟨⟨hcalsp, hcalre⟩, ⟨hdesc, hdnl⟩, ⟨hsne, hssp, hseq, hscap, hspt⟩,
    ⟨hxne, hxsp, hxeq, hxre⟩, ⟨heso, hesoc⟩, hcount, hocc, hlast⟩ := h
  have hcne : f.calculation_code ≠ [] := by
    obtain ⟨t, ht⟩ := calc_shape hcalre
    rw [ht]
    simp
  have hfl : drop_comments (splitLines (to_file_content f)) = fileLines f := by
    rw [to_file_content_eq, splitLines_flatten _ hphys,
      drop_comments_eq_self hncom]
  have h0 : (fileLines f)[0]? = some (line0 f) := by
    unfold fileLines
    simp only [List.getElem?_cons_zero]
  have h1 : (fileLines f)[1]? = some (line1 f) := by
    unfold fileLines
    simp only [List.getElem?_cons_succ, List.getElem?_cons_zero]
  have h2 : (fileLines f)[2]? = some f.esoteric_line := by
    unfold fileLines
    simp only [List.getElem?_cons_succ, List.getElem?_cons_zero]
  have h3 : (fileLines f)[3]? = some (line3 f) := by
    unfold fileLines
    simp only [List.getElem?_cons_succ, List.getElem?_cons_zero]
  have hsplitn : splitOnChar '=' ('n' :: '=' :: f.chemical_symbol) =
      [['n'], f.chemical_symbol] := by
    rw [show ('n' :: '=' :: f.chemical_symbol) =
      (['n'] ++ '=' :: f.chemical_symbol) from rfl]
    exact splitOnChar_pair '=' (by decide) hseq
  have hsplitc : splitOnChar '=' ('c' :: '=' :: f.exchange_correlation_type) =
      [['c'], f.exchange_correlation_type] := by
    rw [show ('c' :: '=' :: f.exchange_correlation_type) =
      (['c'] ++ '=' :: f.exchange_correlation_type) from rfl]
    exact splitOnChar_pair '=' (by decide) hxeq
  have htoNat : f.number_valence_orbitals.toNat =
      f.valence_orbitals.length := by
    rw [hcount]
    omega
  have horb : (List.range' 4 f.valence_orbitals.length).mapM
      (fun i => Option.bind (fileLines f)[i]?
        (fun l => (parse_valence_orbitals l).toOption)) =
      some f.valence_orbitals := by
    apply mapM_range'_option
    intro i hi
    rw [fileLines_getElem_orbital f i hi]
    show (parse_valence_orbitals
      (orbitalLine (f.valence_orbitals.get ⟨i, hi⟩))).toOption =
      some (f.valence_orbitals.get ⟨i, hi⟩)
    rw [parse_valence_orbitals_orbitalLine _
      (hocc _ (List.get_mem f.valence_orbitals i hi))]
    rfl
  have hslice : pySliceFrom (4 + f.number_valence_orbitals) (fileLines f) =
      f.last_lines := by
    unfold pySliceFrom
    rw [if_pos (by rw [hcount]; omega)]
    rw [show (4 + f.number_valence_orbitals).toNat =
      f.valence_orbitals.length + 4 from by rw [hcount]; omega]
    show (f.valence_orbitals.map orbitalLine ++ f.last_lines).drop
      f.valence_orbitals.length = f.last_lines
    have hd := List.drop_left (f.valence_orbitals.map orbitalLine) f.last_lines
    rw [List.length_map] at hd
    exact hd
  have hmk : mkInputFile f.exchange_correlation_type f.calculation_code
      f.chemical_symbol f.esoteric_line f.number_valence_orbitals
      f.number_core_orbitals f.valence_orbitals f.description f.last_lines =
      Except.ok f := by
    unfold mkInputFile exchange_correlation_type_set calculation_code_set
      chemical_symbol_set
    rw [if_pos hxre, if_pos hcalre, if_pos hspt]
    simp only [Bind.bind, Except.bind, pure, Except.pure, hscap]
    by_cases hle : f.last_lines.isEmpty
    · rw [if_pos hle,
        show ([] : List Str) = f.last_lines from
          (List.isEmpty_iff.mp hle).symm]
    · rw [if_neg hle]
  simp only [from_file, hfl]
  rw [h0, h1, h2, h3]
  simp only [Option.map_some', words_line0 f hcalsp hcne, hdesc,
    words_line1 f hssp hxsp, words_line3 f, List.getElem?_cons_zero,
    List.getElem?_cons_succ, hsplitn, hsplitc, parseInt_renderInt,
    Option.pure_def, Option.bind_some, Option.some_bind, Bind.bind,
    Option.bind, Except.bind, pure, Except.pure, htoNat]
  show (match (List.range' 4 f.valence_orbitals.length).mapM
      (fun i => Option.bind (fileLines f)[i]?
        (fun l => (parse_valence_orbitals l).toOption)) with
    | some os => mkInputFile f.exchange_correlation_type f.calculation_code
        f.chemical_symbol f.esoteric_line f.number_valence_orbitals
        f.number_core_orbitals os f.description
        (pySliceFrom (4 + f.number_valence_orbitals) (fileLines f))
    | none => Except.error (PyErr.valueError
        "Valence orbitals do not provided correctly")) = Except.ok f
  rw [horb]
  show mkInputFile f.exchange_correlation_type f.calculation_code
    f.chemical_symbol f.esoteric_line f.number_valence_orbitals
    f.number_core_orbitals f.valence_orbitals f.description
    (pySliceFrom (4 + f.number_valence_orbitals) (fileLines f)) = Except.ok f
  rw [hslice]
  exact hmk

/-- C5: counterexample to the claim as stated.  The builder serializes
`doubleSpaceFile`, whose description holds a double space, without loss,
but `from_file` re-joins the description tokens with single spaces
(`" ".join(line.split()[1:])`), so re-serializing the parse with
`to_stringlist` does not reproduce the original lines byte-for-byte. -/
theorem from_file_to_stringlist_not_roundtrip_cex :
    (from_file (to_file_content doubleSpaceFile)).map to_stringlist ≠
      Except.ok (to_stringlist doubleSpaceFile) := by
  decide

/-- C5 (amended): for every atomic input file in the canonical form the
parser itself produces (`wellFormed`: single-space-separated description
without newline, validated whitespace- and `=`-free codes, capitalized
symbol, newline-terminated non-comment esoteric and trailing lines,
orbital count equal to the orbital-list length, and occupations that are
nonnegative hundredths), parsing the serialized file with
`InputFile.from_file` and re-serializing with `to_stringlist` yields
byte-identical lines. -/
theorem from_file_to_stringlist_roundtrip (f : InputFile)
    (h : wellFormed f) :
    (from_file (to_file_content f)).map to_stringlist =
      Except.ok (to_stringlist f) := by
  rw [from_file_roundtrip f h]
  rfl

/-- The amended round-trip theorem applied to a concrete hydrogen input
file. -/
theorem from_file_to_stringlist_roundtrip_witness :
    wellFormed witnessFile ∧
      (from_file (to_file_content witnessFile)).map to_stringlist =
        Except.ok (to_stringlist witnessFile) :=
  ⟨by decide, from_file_to_stringlist_roundtrip witnessFile (by decide)⟩

end Minushalf
